import Mathlib

/-!
Verification of the jerzy memory/cache subsystem.

Shallow embedding of `jerzy/core.py` (class `ToolCache`) and `jerzy/memory.py`
(classes `Memory` and `EnhancedMemory`).  Python dicts are modelled as
association lists in insertion order (matching CPython's ordered dicts:
updating an existing key keeps its position, inserting a new key appends at
the end, `next(iter(d))` returns the first key).  Python ints are `Int`,
simulated time (`time.time()`) is an explicit `Int` parameter, strings are
Lean `String`s and exceptions are `Option`/sum types.
-/

namespace Jerzy

/-! ### JSON scalar values

Tool arguments and results are JSON-serializable Python values; the claims
only exercise flat argument mappings, so values are modelled as JSON scalars
and an argument mapping is an association list `List (String × JVal)` with
pairwise-distinct keys (a Python dict). -/

inductive JVal where
  | null : JVal
  | bool (b : Bool) : JVal
  | num (n : Int) : JVal
  | str (s : String) : JVal
  deriving DecidableEq, Repr

/-- Minimal JSON string escaping (backslash and double quote), as performed by
`json.dumps` on the strings appearing in the claims. -/
def escapeChars : List Char → List Char
  | [] => []
  | c :: cs =>
    if c = '\\' then '\\' :: '\\' :: escapeChars cs
    else if c = '"' then '\\' :: '"' :: escapeChars cs
    else c :: escapeChars cs

def dumpStr (s : String) : String :=
  "\"" ++ ⟨escapeChars s.data⟩ ++ "\""

def dumpJVal : JVal → String
  | .null => "null"
  | .bool true => "true"
  | .bool false => "false"
  | .num n => toString n
  | .str s => dumpStr s

/-- Ordering used by `json.dumps(args, sort_keys=True)`: fields are sorted
lexicographically by key. -/
def keyLe (p q : String × JVal) : Prop := p.1 ≤ q.1

instance : DecidableRel keyLe := fun p q => inferInstanceAs (Decidable (p.1 ≤ q.1))

instance : IsTotal (String × JVal) keyLe := ⟨fun p q => le_total p.1 q.1⟩

instance : IsTrans (String × JVal) keyLe := ⟨fun _ _ _ h h' => le_trans h h'⟩

def joinSep (sep : String) : List String → String
  | [] => ""
  | [s] => s
  | s :: rest => s ++ sep ++ joinSep sep rest

/-- `json.dumps(args, sort_keys=True)` for a flat argument dict: keys sorted
lexicographically, default separators `", "` and `": "`. -/
def jsonDumpsSorted (args : List (String × JVal)) : String :=
  "\x7b" ++
    joinSep ", " ((List.insertionSort keyLe args).map
      (fun p => dumpStr p.1 ++ ": " ++ dumpJVal p.2)) ++
  "\x7d"

/-- `ToolCache._generate_key`:
`sorted_args = json.dumps(args, sort_keys=True); return f"{tool_name}:{sorted_args}"`. -/
def generate_key (tool_name : String) (args : List (String × JVal)) : String :=
  tool_name ++ ":" ++ jsonDumpsSorted args

/-! ### Association lists with Python-dict semantics -/

/-- `d[k]` / `d.get(k)`: first binding of `k`. -/
def lookupA {α : Type} (k : String) : List (String × α) → Option α
  | [] => none
  | (k', v) :: rest => if k' = k then some v else lookupA k rest

/-- `d[k] = v`: update in place if present (keeping the key's position),
append at the end otherwise. -/
def setA {α : Type} (k : String) (v : α) : List (String × α) → List (String × α)
  | [] => [(k, v)]
  | (k', v') :: rest => if k' = k then (k', v) :: rest else (k', v') :: setA k v rest

/-- `del d[k]` for a present key: removes the first binding of `k`. -/
def eraseA {α : Type} (k : String) : List (String × α) → List (String × α)
  | [] => []
  | (k', v') :: rest => if k' = k then rest else (k', v') :: eraseA k rest

/-- `d[k] = f(d[k])`-style in-place mutation of a value known to be present
(`self.threads[thread_id].append(...)`); no-op on an absent key, which the
source never exercises because it only mutates keys it just ensured exist. -/
def updateA {α : Type} (k : String) (f : α → α) : List (String × α) → List (String × α)
  | [] => []
  | (k', v') :: rest => if k' = k then (k', f v') :: rest else (k', v') :: updateA k f rest

/-! ### ToolCache (`jerzy/core.py`) -/

/-- `ToolCache.__init__`: `self.cache = {}` maps a cache key to
`(result, timestamp)`; `max_size` is a Python int, `ttl` optional. -/
structure ToolCache where
  cache : List (String × JVal × Int)
  max_size : Int
  ttl : Option Int
  deriving DecidableEq, Repr

/-- `ToolCache(max_size, ttl)` constructor. -/
def mkToolCache (max_size : Int) (ttl : Option Int) : ToolCache :=
  { cache := [], max_size := max_size, ttl := ttl }

/-- `ToolCache.get(tool_name, args)` at current time `now`; returns the read
result together with the cache state after the call (an expired entry is
deleted as a side effect). -/
def toolCacheGet (c : ToolCache) (tool_name : String) (args : List (String × JVal))
    (now : Int) : Option JVal × ToolCache :=
  let key := generate_key tool_name args
  match lookupA key c.cache with
  | some (result, timestamp) =>
    match c.ttl with
    | some ttl =>
      if now - timestamp > ttl then (none, { c with cache := eraseA key c.cache })
      else (some result, c)
    | none => (some result, c)
  | none => (none, c)

/-- `ToolCache.set(tool_name, args, result)` at current time `now`.
When `len(self.cache) >= self.max_size` and the key is new, the source
evicts `next(iter(self.cache))`, the earliest-inserted key; on an empty
cache that expression raises `StopIteration`, modelled as `none`. -/
def toolCacheSet (c : ToolCache) (tool_name : String) (args : List (String × JVal))
    (result : JVal) (now : Int) : Option ToolCache :=
  let key := generate_key tool_name args
  if (c.cache.length : Int) ≥ c.max_size ∧ lookupA key c.cache = none then
    match c.cache with
    | [] => none
    | _ :: rest => some { c with cache := setA key (result, now) rest }
  else
    some { c with cache := setA key (result, now) c.cache }

/-- `ToolCache.clear()`. -/
def toolCacheClear (c : ToolCache) : ToolCache := { c with cache := [] }

/-- `ToolCache.remove(tool_name, args)`: `if key in self.cache: del self.cache[key]`. -/
def toolCacheRemove (c : ToolCache) (tool_name : String)
    (args : List (String × JVal)) : ToolCache :=
  let key := generate_key tool_name args
  if (lookupA key c.cache).isSome then { c with cache := eraseA key c.cache } else c

/-! ### History entries (`jerzy/memory.py`)

A history entry is a Python dict; the fields touched by the source are
`role`, `content`, `type` and `timestamp`, each possibly absent
(`entry.get(...)`). -/

structure Entry where
  role : Option String
  content : Option String
  type : Option String
  timestamp : Option String
  deriving DecidableEq, Repr

/-- `if "timestamp" not in entry: entry["timestamp"] = datetime.now().isoformat()`
with the ambient clock passed explicitly. -/
def stampE (e : Entry) (now : String) : Entry :=
  if e.timestamp = none then { e with timestamp := some now } else e

/-- State of the base class `Memory`. -/
structure Mem where
  storage : List (String × JVal)
  history : List Entry
  tool_calls : List Entry
  reasoning_steps : List Entry
  deriving DecidableEq, Repr

/-- `Memory.add_to_history(entry)`: stamp a missing timestamp, append to
`history`, and classify into the reasoning / tool-call views. -/
def add_to_history (m : Mem) (entry : Entry) (now : String) : Mem :=
  let entry := stampE entry now
  let m := { m with history := m.history ++ [entry] }
  if entry.type = some "reasoning" then
    { m with reasoning_steps := m.reasoning_steps ++ [entry] }
  else if entry.type = some "tool_call" then
    { m with tool_calls := m.tool_calls ++ [entry] }
  else m

/-! #### Python string helpers used by memory.py -/

/-- `str.lower()` (per-character, which covers the source's usage). -/
def pyLower (s : String) : String := ⟨s.data.map Char.toLower⟩

/-- Accumulator-passing core of `str.split()`: split on runs of whitespace,
discarding empty pieces.  `acc` holds the current in-progress word, reversed. -/
def splitAux : List Char → List Char → List (List Char)
  | [], acc => if acc = [] then [] else [acc.reverse]
  | c :: cs, acc =>
    if c.isWhitespace then
      if acc = [] then splitAux cs [] else acc.reverse :: splitAux cs []
    else splitAux cs (c :: acc)

/-- `str.split()` with no separator argument. -/
def pySplit (s : String) : List String := (splitAux s.data []).map (fun l => ⟨l⟩)

/-- `entry["content"].lower().split()`. -/
def tokens (s : String) : List String := pySplit (pyLower s)

/-- `set(entry["content"].lower().split())` when `"content" in entry`, else no
words.  A Python `set` iterates in an unspecified order; it is modelled as a
duplicate-free list, which leaves every per-word posting list (the only thing
the claims observe) unchanged. -/
def tokensD (e : Entry) : List String :=
  match e.content with
  | some c => (tokens c).dedup
  | none => []

/-! #### Keyword index -/

/-- `if word not in self.indexed_content: self.indexed_content[word] = []`
followed by `self.indexed_content[word].append(i)`. -/
def appendP (word : String) (i : Int)
    (idx : List (String × List Int)) : List (String × List Int) :=
  match lookupA word idx with
  | some l => setA word (l ++ [i]) idx
  | none => idx ++ [(word, [i])]

/-- Index one entry's words under global index `i` (the loop body shared by
`add_to_thread` and the rebuild in `load_from_file`). -/
def indexEntry (idx : List (String × List Int)) (i : Int) (e : Entry) :
    List (String × List Int) :=
  (tokensD e).foldl (fun a w => appendP w i a) idx

/-- `for i, entry in enumerate(self.history): ...` starting at index `i`. -/
def rebuildFrom (idx : List (String × List Int)) (i : Nat) :
    List Entry → List (String × List Int)
  | [] => idx
  | e :: rest => rebuildFrom (indexEntry idx (i : Int) e) (i + 1) rest

/-- The keyword index `load_from_file` rebuilds from scratch. -/
def rebuildIndex (h : List Entry) : List (String × List Int) := rebuildFrom [] 0 h

/-- Global indices (ascending, offset by `i`) of the entries whose content
contains `w` as a whitespace-separated token: the reference posting list. -/
def occFrom (w : String) (i : Nat) : List Entry → List Int
  | [] => []
  | e :: rest => (if w ∈ tokensD e then [(i : Int)] else []) ++ occFrom w (i + 1) rest

def occ (w : String) (h : List Entry) : List Int := occFrom w 0 h

/-! #### EnhancedMemory -/

/-- State of `EnhancedMemory` (inherits the `Memory` fields). -/
structure EMem extends Mem where
  max_history_length : Int
  threads : List (String × List Int)
  current_thread : String
  indexed_content : List (String × List Int)
  deriving DecidableEq, Repr

/-- `EnhancedMemory(max_history_length=100)` constructor. -/
def initE (max_history_length : Int := 100) : EMem :=
  { storage := [], history := [], tool_calls := [], reasoning_steps := [],
    max_history_length := max_history_length, threads := [],
    current_thread := "default", indexed_content := [] }

/-- `EnhancedMemory.add_to_thread(thread_id, entry)`. -/
def add_to_thread (m : EMem) (thread_id : String) (entry : Entry) (now : String) : EMem :=
  let m := if (lookupA thread_id m.threads).isSome then m
           else { m with threads := m.threads ++ [(thread_id, [])] }
  let m := { m with toMem := add_to_history m.toMem entry now }
  let entry_index : Int := (m.history.length : Int) - 1
  let m := { m with threads := updateA thread_id (fun l => l ++ [entry_index]) m.threads }
  { m with indexed_content := indexEntry m.indexed_content entry_index (stampE entry now) }

/-- Rebase a stored index list after `to_remove` entries were dropped:
`[i - to_remove for i in l if i >= to_remove]`. -/
def rebaseL (to_remove : Int) (l : List Int) : List Int :=
  (l.filter (fun i => to_remove ≤ i)).map (fun i => i - to_remove)

/-- `EnhancedMemory.prune_history(keep_last_n)`.  `not keep_last_n` is Python
truthiness: `None` and `0` both return immediately. -/
def prune_history : EMem → Option Int → EMem
  | m, none => m
  | m, some k =>
    if k = 0 ∨ (m.history.length : Int) ≤ k then m
    else
      let to_remove : Int := (m.history.length : Int) - k
      { m with
        history := m.history.drop to_remove.toNat,
        threads := m.threads.map (fun p => (p.1, rebaseL to_remove p.2)),
        indexed_content := m.indexed_content.map (fun p => (p.1, rebaseL to_remove p.2)) }

/-! #### Relevance search -/

/-- `word in content` (Python substring containment), executable. -/
def infixB (pat : List Char) : List Char → Bool
  | [] => pat.isEmpty
  | c :: cs => pat.isPrefixOf (c :: cs) || infixB pat cs

/-- `self.history[idx]` for a Python int index: non-negative indices are
positions, negative indices wrap once from the end, anything still out of
range raises `IndexError` (`none`). -/
def pyNth (h : List Entry) (i : Int) : Option Entry :=
  if 0 ≤ i then h[i.toNat]?
  else if 0 ≤ i + (h.length : Int) then h[(i + (h.length : Int)).toNat]?
  else none

/-- `EnhancedMemory.find_relevant(query, top_k)`.  `none` marks the
(unreachable in well-formed states) `IndexError` on a wrapped negative index;
the candidate set is modelled as a duplicate-free list in first-insertion
order, and `scores.sort(key=..., reverse=True)` as a stable descending sort
(Python's sort is stable). -/
def find_relevant (m : EMem) (query : String) (top_k : Nat) : Option (List Entry) := do
  let query_words := pySplit (pyLower query)
  let candidate_indices := query_words.foldl
    (fun acc w =>
      match lookupA w m.indexed_content with
      | some post => post.foldl (fun a i => if i ∈ a then a else a ++ [i]) acc
      | none => acc) []
  let scores ← (candidate_indices.filter (fun i => i < (m.history.length : Int))).mapM
    (fun i => (pyNth m.history i).map (fun e =>
      (i, query_words.countP
            (fun w => infixB w.data (pyLower (e.content.getD "")).data))))
  let sorted := List.insertionSort (fun a b : Int × Nat => b.2 ≤ a.2) scores
  let top_indices := ((sorted.take top_k).filter (fun p => 0 < p.2)).map (fun p => p.1)
  top_indices.mapM (fun i => pyNth m.history i)

/-! #### get_last_reasoning -/

/-- Fuelled scan implementing `str.replace(pat, "")` (delete every
non-overlapping occurrence, left to right).  One unit of fuel is spent per
character position, so `fuel = l.length` computes the exact replacement for
any non-empty pattern. -/
def removeAllAux (pat : List Char) : Nat → List Char → List Char
  | 0, l => l
  | _ + 1, [] => []
  | fuel + 1, c :: cs =>
    if pat.isPrefixOf (c :: cs) ∧ pat ≠ [] then
      removeAllAux pat fuel ((c :: cs).drop pat.length)
    else c :: removeAllAux pat fuel cs

/-- `s.replace(pat, "")` for a non-empty pattern. -/
def pyReplaceDel (pat s : String) : String := ⟨removeAllAux pat.data s.data.length s.data⟩

/-- `str.strip()`: drop leading and trailing whitespace. -/
def pyStrip (s : String) : String :=
  ⟨(((s.data.dropWhile Char.isWhitespace).reverse.dropWhile Char.isWhitespace).reverse)⟩

/-- `Memory.get_last_reasoning`: scan `reversed(self.history)` for the first
entry with `entry.get("type") == "reasoning"` and return
`entry.get("content", "").replace("Reasoning:", "").strip()`. -/
def get_last_reasoning (m : Mem) : Option String :=
  (m.history.reverse.find? (fun e => e.type == some "reasoning")).map
    (fun e => pyStrip (pyReplaceDel "Reasoning:" (e.content.getD "")))

/-! #### Persistence -/

/-- The JSON object in a snapshot file, as seen by `load_from_file`: each of
the three keys may be absent (`data["history"]` raises `KeyError`), and a
missing/unparsable file is `none` at the call site. -/
structure LoadData where
  history : Option (List Entry)
  threads : Option (List (String × List Int))
  current_thread : Option String
  deriving DecidableEq, Repr

/-- `EnhancedMemory.save_to_file`: the JSON object written (the keyword index
is deliberately not serialized). -/
def save_to_file (m : EMem) : LoadData :=
  { history := some m.history, threads := some m.threads,
    current_thread := some m.current_thread }

/-- The `try:` body of `load_from_file`, with the state at each raise point:
`.error` carries the in-memory state at the moment the exception escapes.
Attribute assignments happen in source order, so a `KeyError` on
`data["threads"]` escapes only after `self.history` was already replaced. -/
def load_body (m : EMem) (file : Option LoadData) : Except EMem EMem := do
  let data ← match file with
    | none => Except.error m
    | some d => pure d
  let h ← match data.history with
    | none => Except.error m
    | some h => pure h
  let m := { m with history := h }
  let t ← match data.threads with
    | none => Except.error m
    | some t => pure t
  let m := { m with threads := t }
  let m := { m with current_thread := data.current_thread.getD "default" }
  pure { m with indexed_content := rebuildIndex h }

/-- `EnhancedMemory.load_from_file`: the surrounding
`except Exception as e: print(...)` swallows every failure, keeping whatever
state the body had reached. -/
def load_from_file (m : EMem) (file : Option LoadData) : EMem :=
  match load_body m file with
  | .ok m' => m'
  | .error m' => m'

/-! #### Wellformedness and reachable states -/

/-- The KeywordIndex invariant of the data model: every word's posting list
is exactly what a from-scratch rebuild of the current history produces
(equivalently, the ascending list of global indices whose content contains
the word as a token). -/
def goodIndex (m : EMem) : Prop :=
  ∀ w : String,
    (lookupA w m.indexed_content).getD [] = (lookupA w (rebuildIndex m.history)).getD []

/-- A sequence of `add_to_thread(thread_id, entry)` calls (each carrying its
wall-clock timestamp). -/
def applyAdds (m : EMem) (ops : List (String × Entry × String)) : EMem :=
  ops.foldl (fun m o => add_to_thread m o.1 o.2.1 o.2.2) m

/-! ### Association-list lemmas -/

theorem lookupA_nil {α : Type} (k : String) : lookupA (α := α) k [] = none := rfl

theorem lookupA_cons {α : Type} (k k' : String) (v : α) (rest : List (String × α)) :
    lookupA k ((k', v) :: rest) = if k' = k then some v else lookupA k rest := rfl

theorem lookupA_setA_self {α : Type} (k : String) (v : α) (l : List (String × α)) :
    lookupA k (setA k v l) = some v := by
  induction l with
  | nil => simp [setA, lookupA]
  | cons p rest ih =>
    by_cases h : p.1 = k
    · simp [setA, h, lookupA]
    · simp [setA, h, lookupA, ih]

theorem lookupA_setA_ne {α : Type} {k k' : String} (h : k' ≠ k) (v : α)
    (l : List (String × α)) : lookupA k' (setA k v l) = lookupA k' l := by
  induction l with
  | nil => simp [setA, lookupA, h.symm]
  | cons p rest ih =>
    by_cases hp : p.1 = k
    · simp [setA, hp, lookupA, h.symm]
    · simp [setA, hp, lookupA, ih]

theorem setA_of_absent {α : Type} {k : String} {l : List (String × α)}
    (h : lookupA k l = none) (v : α) : setA k v l = l ++ [(k, v)] := by
  induction l with
  | nil => simp [setA]
  | cons p rest ih =>
    by_cases hp : p.1 = k
    · simp [lookupA, hp] at h
    · simp [lookupA, hp] at h
      simp [setA, hp, ih h]

theorem map_fst_setA_of_mem {α : Type} {k : String} {l : List (String × α)}
    (h : (lookupA k l).isSome) (v : α) :
    (setA k v l).map Prod.fst = l.map Prod.fst := by
  induction l with
  | nil => simp [lookupA] at h
  | cons p rest ih =>
    by_cases hp : p.1 = k
    · simp [setA, hp]
    · simp [lookupA, hp] at h
      simp [setA, hp, ih h]

theorem lookupA_eq_none_iff {α : Type} (k : String) (l : List (String × α)) :
    lookupA k l = none ↔ k ∉ l.map Prod.fst := by
  induction l with
  | nil => simp [lookupA]
  | cons p rest ih =>
    by_cases hp : p.1 = k
    · simp [lookupA, hp]
    · rw [lookupA, if_neg hp, ih]
      simp only [List.map_cons, List.mem_cons, not_or]
      constructor
      · exact fun hk => ⟨fun h1 => hp h1.symm, hk⟩
      · exact fun hk => hk.2

theorem lookupA_eraseA_self {α : Type} {k : String} {l : List (String × α)}
    (h : (l.map Prod.fst).Nodup) : lookupA k (eraseA k l) = none := by
  induction l with
  | nil => simp [eraseA, lookupA]
  | cons p rest ih =>
    simp only [List.map_cons, List.nodup_cons] at h
    by_cases hp : p.1 = k
    · rw [eraseA, if_pos hp, lookupA_eq_none_iff]
      exact hp ▸ h.1
    · simp [eraseA, hp, lookupA, ih h.2]

theorem lookupA_updateA_self {α : Type} (k : String) (f : α → α)
    (l : List (String × α)) : lookupA k (updateA k f l) = (lookupA k l).map f := by
  induction l with
  | nil => simp [updateA, lookupA]
  | cons p rest ih =>
    by_cases hp : p.1 = k
    · simp [updateA, hp, lookupA]
    · simp [updateA, hp, lookupA, ih]

theorem lookupA_updateA_ne {α : Type} {k k' : String} (h : k' ≠ k) (f : α → α)
    (l : List (String × α)) : lookupA k' (updateA k f l) = lookupA k' l := by
  induction l with
  | nil => simp [updateA]
  | cons p rest ih =>
    by_cases hp : p.1 = k
    · simp [updateA, hp, lookupA, h.symm]
    · simp [updateA, hp, lookupA, ih]

theorem lookupA_mapVal {α β : Type} (k : String) (f : α → β) (l : List (String × α)) :
    lookupA k (l.map (fun p => (p.1, f p.2))) = (lookupA k l).map f := by
  induction l with
  | nil => simp [lookupA]
  | cons p rest ih =>
    by_cases hp : p.1 = k
    · simp [lookupA, hp]
    · simp [lookupA, hp, ih]

theorem lookupA_append_of_none {α : Type} {k : String} {l₁ : List (String × α)}
    (h : lookupA k l₁ = none) (l₂ : List (String × α)) :
    lookupA k (l₁ ++ l₂) = lookupA k l₂ := by
  induction l₁ with
  | nil => simp
  | cons p rest ih =>
    by_cases hp : p.1 = k
    · simp [lookupA, hp] at h
    · simp [lookupA, hp] at h ⊢
      exact ih h

theorem lookupA_append_of_some {α : Type} {k : String} {l₁ : List (String × α)} {v : α}
    (h : lookupA k l₁ = some v) (l₂ : List (String × α)) :
    lookupA k (l₁ ++ l₂) = some v := by
  induction l₁ with
  | nil => simp [lookupA] at h
  | cons p rest ih =>
    by_cases hp : p.1 = k
    · simp [lookupA, hp] at h ⊢
      exact h
    · simp [lookupA, hp] at h ⊢
      exact ih h

/-! ### Keyword-index lemmas -/

theorem lookupA_appendP_self (w : String) (i : Int) (idx : List (String × List Int)) :
    lookupA w (appendP w i idx) = some ((lookupA w idx).getD [] ++ [i]) := by
  unfold appendP
  cases h : lookupA w idx with
  | some l => simp [lookupA_setA_self, h]
  | none => simp [lookupA_append_of_none h, lookupA]

theorem lookupA_appendP_ne {w w' : String} (h : w' ≠ w) (i : Int)
    (idx : List (String × List Int)) :
    lookupA w' (appendP w i idx) = lookupA w' idx := by
  unfold appendP
  cases hl : lookupA w idx with
  | some l => simp [lookupA_setA_ne h]
  | none =>
    cases hw' : lookupA w' idx with
    | some v => simp [lookupA_append_of_some hw']
    | none => simp [lookupA_append_of_none hw', lookupA, h.symm]

theorem lookupA_foldl_appendP_of_not_mem {w : String} {ws : List String}
    (h : w ∉ ws) (i : Int) (idx : List (String × List Int)) :
    lookupA w (ws.foldl (fun a w' => appendP w' i a) idx) = lookupA w idx := by
  induction ws generalizing idx with
  | nil => rfl
  | cons x rest ih =>
    simp only [List.mem_cons, not_or] at h
    rw [List.foldl_cons, ih h.2, lookupA_appendP_ne h.1]

theorem lookupA_foldl_appendP_of_mem {w : String} {ws : List String}
    (hnd : ws.Nodup) (h : w ∈ ws) (i : Int) (idx : List (String × List Int)) :
    lookupA w (ws.foldl (fun a w' => appendP w' i a) idx) =
      some ((lookupA w idx).getD [] ++ [i]) := by
  induction ws generalizing idx with
  | nil => cases h
  | cons x rest ih =>
    rw [List.nodup_cons] at hnd
    rcases List.mem_cons.mp h with hw | hw
    · subst hw
      rw [List.foldl_cons, lookupA_foldl_appendP_of_not_mem hnd.1, lookupA_appendP_self]
    · rw [List.foldl_cons, ih hnd.2 hw, lookupA_appendP_ne]
      intro he
      rw [he] at hw
      exact hnd.1 hw

/-- `getD`-level effect of indexing one entry: each of the entry's words gets
`i` appended to its posting list; every other word is untouched. -/
theorem getD_lookupA_indexEntry (w : String) (idx : List (String × List Int))
    (i : Int) (e : Entry) :
    (lookupA w (indexEntry idx i e)).getD [] =
      (lookupA w idx).getD [] ++ (if w ∈ tokensD e then [i] else []) := by
  by_cases h : w ∈ tokensD e
  · have hnd : (tokensD e).Nodup := by
      unfold tokensD
      cases e.content with
      | none => simp
      | some c => exact List.nodup_dedup _
    rw [indexEntry, lookupA_foldl_appendP_of_mem hnd h, if_pos h]
    simp
  · rw [indexEntry, lookupA_foldl_appendP_of_not_mem h, if_neg h]
    simp

theorem isSome_lookupA_indexEntry (w : String) (idx : List (String × List Int))
    (i : Int) (e : Entry) :
    (lookupA w (indexEntry idx i e)).isSome =
      ((lookupA w idx).isSome || decide (w ∈ tokensD e)) := by
  by_cases h : w ∈ tokensD e
  · have hnd : (tokensD e).Nodup := by
      unfold tokensD
      cases e.content with
      | none => simp
      | some c => exact List.nodup_dedup _
    rw [indexEntry, lookupA_foldl_appendP_of_mem hnd h]
    simp [h]
  · rw [indexEntry, lookupA_foldl_appendP_of_not_mem h]
    simp [h]

/-! ### occ / rebuild lemmas -/

theorem occFrom_bounds {w : String} {i : Nat} {h : List Entry} :
    ∀ j ∈ occFrom w i h, (i : Int) ≤ j ∧ j < (i : Int) + h.length := by
  induction h generalizing i with
  | nil => simp [occFrom]
  | cons e rest ih =>
    intro j hj
    rw [occFrom, List.mem_append] at hj
    simp only [List.length_cons, Nat.cast_add, Nat.cast_one]
    rcases hj with hj | hj
    · have hji : j = (i : Int) := by
        by_cases he : w ∈ tokensD e <;> simp [he] at hj
        exact hj
      subst hji
      omega
    · have h2 := ih j hj
      push_cast at h2
      omega

theorem occFrom_append (w : String) (i : Nat) (h₁ h₂ : List Entry) :
    occFrom w i (h₁ ++ h₂) = occFrom w i h₁ ++ occFrom w (i + h₁.length) h₂ := by
  induction h₁ generalizing i with
  | nil => simp [occFrom]
  | cons e rest ih =>
    simp only [List.cons_append, occFrom, List.append_eq, List.length_cons, ih (i + 1)]
    rw [List.append_assoc]
    have h3 : i + 1 + rest.length = i + (rest.length + 1) := by omega
    rw [h3]

theorem occFrom_eq_map_add (w : String) (i : Nat) (h : List Entry) :
    occFrom w i h = (occFrom w 0 h).map (fun j => j + (i : Int)) := by
  induction h generalizing i with
  | nil => simp [occFrom]
  | cons e rest ih =>
    rw [occFrom, occFrom, List.map_append, ih (i + 1), ih 1, List.map_map]
    congr 1
    · by_cases he : w ∈ tokensD e <;> simp [he]
    · apply List.map_congr_left
      intro j _
      simp only [Function.comp_apply]
      push_cast
      omega

theorem rebuildFrom_snoc (idx : List (String × List Int)) (i : Nat)
    (h : List Entry) (e : Entry) :
    rebuildFrom idx i (h ++ [e]) = indexEntry (rebuildFrom idx i h) ((i + h.length : Nat) : Int) e := by
  induction h generalizing idx i with
  | nil => simp [rebuildFrom]
  | cons e' rest ih =>
    rw [List.cons_append, rebuildFrom, ih, rebuildFrom]
    have h3 : i + 1 + rest.length = i + (e' :: rest).length := by
      simp only [List.length_cons]
      omega
    rw [h3]

theorem getD_lookupA_rebuildFrom (w : String) (idx : List (String × List Int))
    (i : Nat) (h : List Entry) :
    (lookupA w (rebuildFrom idx i h)).getD [] =
      (lookupA w idx).getD [] ++ occFrom w i h := by
  induction h generalizing idx i with
  | nil => simp [rebuildFrom, occFrom]
  | cons e rest ih =>
    rw [rebuildFrom, ih, occFrom, getD_lookupA_indexEntry, List.append_assoc]

theorem isSome_lookupA_rebuildFrom (w : String) (idx : List (String × List Int))
    (i : Nat) (h : List Entry) :
    (lookupA w (rebuildFrom idx i h)).isSome =
      ((lookupA w idx).isSome || decide (occFrom w i h ≠ [])) := by
  induction h generalizing idx i with
  | nil => simp [rebuildFrom, occFrom]
  | cons e rest ih =>
    rw [rebuildFrom, ih, occFrom, isSome_lookupA_indexEntry]
    by_cases he : w ∈ tokensD e <;> by_cases hr : occFrom w (i + 1) rest = [] <;>
      simp [he, hr]

/-- The rebuilt index holds exactly the reference posting lists, with words
that occur nowhere absent (never bound to `[]`). -/
theorem lookupA_rebuildIndex (w : String) (h : List Entry) :
    lookupA w (rebuildIndex h) = if occ w h = [] then none else some (occ w h) := by
  have hd := getD_lookupA_rebuildFrom w [] 0 h
  have hs := isSome_lookupA_rebuildFrom w [] 0 h
  simp only [lookupA, Option.getD_none, Option.isSome_none, List.nil_append,
    Bool.false_or] at hd hs
  rw [rebuildIndex]
  unfold occ
  by_cases hocc : occFrom w 0 h = []
  · rw [if_pos hocc]
    rw [hocc] at hs
    simp at hs
    exact Option.not_isSome_iff_eq_none.mp (by simp [hs])
  · rw [if_neg hocc]
    have hsome : (lookupA w (rebuildFrom [] 0 h)).isSome := by simp [hs, hocc]
    obtain ⟨l, hl⟩ := Option.isSome_iff_exists.mp hsome
    rw [hl] at hd ⊢
    simp only [Option.getD_some] at hd
    rw [hd]

theorem of_mem_occFrom {w : String} {i : Nat} {h : List Entry} {j : Int}
    (hj : j ∈ occFrom w i h) :
    ∃ jn : Nat, ∃ e : Entry, jn < h.length ∧ j = ((i + jn : Nat) : Int) ∧
      h[jn]? = some e ∧ w ∈ tokensD e := by
  induction h generalizing i with
  | nil => simp [occFrom] at hj
  | cons e rest ih =>
    rw [occFrom, List.mem_append] at hj
    rcases hj with hj | hj
    · by_cases he : w ∈ tokensD e
      · simp only [he, if_true, List.mem_singleton] at hj
        exact ⟨0, e, by simp, by omega, by simp, he⟩
      · simp [he] at hj
    · obtain ⟨jn, e', hlt, hje, hget, hw⟩ := ih hj
      exact ⟨jn + 1, e', by simpa using hlt, by push_cast at hje ⊢; omega,
        by simpa using hget, hw⟩

theorem occ_ne_nil_of_mem {w : String} {h : List Entry} {e : Entry}
    (he : e ∈ h) (hw : w ∈ tokensD e) : occ w h ≠ [] := by
  unfold occ
  induction h generalizing e with
  | nil => cases he
  | cons x rest ih =>
    rw [occFrom]
    rcases List.mem_cons.mp he with hx | hx
    · subst hx
      simp [hw]
    · intro hnil
      rcases List.append_eq_nil.mp hnil with ⟨_, h2⟩
      have h3 : occFrom w 0 rest ≠ [] := ih hx hw
      rw [occFrom_eq_map_add w 1 rest] at h2
      exact h3 (List.map_eq_nil_iff.mp h2)

/-- Rebasing the reference postings after dropping the first `r` entries gives
exactly the reference postings of the shortened history. -/
theorem rebaseL_occ {r : Int} {h : List Entry} (hr : 0 ≤ r) (w : String) :
    rebaseL r (occ w h) = occ w (h.drop r.toNat) := by
  by_cases hrl : r.toNat ≤ h.length
  case neg =>
    have hdrop : h.drop r.toNat = [] := List.drop_eq_nil_of_le (by omega)
    rw [hdrop]
    have hfilter : (occ w h).filter (fun i => r ≤ i) = [] := by
      rw [List.filter_eq_nil_iff]
      intro j hj
      have hb := occFrom_bounds j hj
      simp only [decide_eq_true_eq]
      omega
    rw [rebaseL, hfilter]
    rfl
  case pos =>
  set rn := r.toNat with hrn
  have hcast : (rn : Int) = r := Int.toNat_of_nonneg hr
  have hsplit : h = h.take rn ++ h.drop rn := (List.take_append_drop rn h).symm
  have hlen : (h.take rn).length = rn := List.length_take_of_le hrl
  rw [rebaseL, occ]
  conv_lhs => rw [hsplit, occFrom_append, hlen]
  simp only [Nat.zero_add]
  have hfilter₁ : (occFrom w 0 (h.take rn)).filter (fun i => r ≤ i) = [] := by
    rw [List.filter_eq_nil_iff]
    intro j hj
    have := occFrom_bounds j hj
    rw [hlen] at this
    simp only [decide_eq_true_eq]
    push_cast at this
    omega
  have hshift := occFrom_eq_map_add w rn (h.drop rn)
  rw [List.filter_append, hfilter₁, List.nil_append, hshift, List.filter_map]
  have hfilter₂ :
      (occFrom w 0 (h.drop rn)).filter ((fun i => decide (r ≤ i)) ∘ fun j => j + (rn : Int)) =
        occFrom w 0 (h.drop rn) := by
    rw [List.filter_eq_self]
    intro j hj
    have := occFrom_bounds j hj
    simp only [Function.comp_apply, decide_eq_true_eq]
    omega
  rw [hfilter₂, List.map_map, occ]
  have : ((fun i => i - r) ∘ fun j => j + (rn : Int)) = id := by
    funext j
    simp only [Function.comp_apply, id_eq]
    omega
  rw [this, List.map_id]

theorem mem_rebaseL {r j : Int} {l : List Int} (hj : j ∈ rebaseL r l) :
    ∃ i ∈ l, r ≤ i ∧ j = i - r := by
  rw [rebaseL] at hj
  obtain ⟨i, hi, hji⟩ := List.mem_map.mp hj
  rw [List.mem_filter] at hi
  exact ⟨i, hi.1, by simpa using hi.2, hji.symm⟩

/-! ### State-level characterizations -/

theorem stampE_content (e : Entry) (now : String) : (stampE e now).content = e.content := by
  unfold stampE
  split <;> rfl

theorem stampE_type (e : Entry) (now : String) : (stampE e now).type = e.type := by
  unfold stampE
  split <;> rfl

theorem tokensD_stampE (e : Entry) (now : String) : tokensD (stampE e now) = tokensD e := by
  unfold tokensD
  rw [stampE_content]

theorem add_to_history_history (m : Mem) (e : Entry) (now : String) :
    (add_to_history m e now).history = m.history ++ [stampE e now] := by
  unfold add_to_history
  by_cases h1 : (stampE e now).type = some "reasoning"
  · simp [h1]
  · by_cases h2 : (stampE e now).type = some "tool_call" <;> simp [h1, h2]

theorem add_to_thread_history (m : EMem) (tid : String) (e : Entry) (now : String) :
    (add_to_thread m tid e now).history = m.history ++ [stampE e now] := by
  unfold add_to_thread
  by_cases ht : (lookupA tid m.threads).isSome <;>
    simp [ht, add_to_history_history]

theorem add_to_thread_threads (m : EMem) (tid : String) (e : Entry) (now : String) :
    (add_to_thread m tid e now).threads =
      updateA tid (fun l => l ++ [(m.history.length : Int)])
        (if (lookupA tid m.threads).isSome then m.threads else m.threads ++ [(tid, [])]) := by
  unfold add_to_thread
  by_cases ht : (lookupA tid m.threads).isSome <;>
    simp [ht, add_to_history_history, List.length_append, Nat.cast_add, Nat.cast_one,
      add_sub_cancel_right]

theorem add_to_thread_indexed (m : EMem) (tid : String) (e : Entry) (now : String) :
    (add_to_thread m tid e now).indexed_content =
      indexEntry m.indexed_content (m.history.length : Int) (stampE e now) := by
  unfold add_to_thread
  by_cases ht : (lookupA tid m.threads).isSome <;>
    simp [ht, add_to_history_history, List.length_append, Nat.cast_add, Nat.cast_one,
      add_sub_cancel_right]

theorem applyAdds_nil (m : EMem) : applyAdds m [] = m := rfl

theorem applyAdds_cons (m : EMem) (o : String × Entry × String)
    (rest : List (String × Entry × String)) :
    applyAdds m (o :: rest) = applyAdds (add_to_thread m o.1 o.2.1 o.2.2) rest := rfl

theorem applyAdds_history (m : EMem) (ops : List (String × Entry × String)) :
    (applyAdds m ops).history = m.history ++ ops.map (fun o => stampE o.2.1 o.2.2) := by
  induction ops generalizing m with
  | nil => simp [applyAdds_nil]
  | cons o rest ih =>
    rw [applyAdds_cons, ih, add_to_thread_history, List.map_cons, List.append_assoc,
      List.singleton_append]

/-- All indices stored in the thread index and the keyword index are
in-range global history positions. -/
def IdxBound (m : EMem) : Prop :=
  (∀ tid l, lookupA tid m.threads = some l →
    ∀ i ∈ l, 0 ≤ i ∧ i < (m.history.length : Int)) ∧
  (∀ w l, lookupA w m.indexed_content = some l →
    ∀ i ∈ l, 0 ≤ i ∧ i < (m.history.length : Int))

theorem idxBound_initE (n : Int) : IdxBound (initE n) := by
  constructor <;> intro k l hl <;> simp [initE, lookupA] at hl

theorem idxBound_add {m : EMem} (hm : IdxBound m) (tid : String) (e : Entry)
    (now : String) : IdxBound (add_to_thread m tid e now) := by
  have hh := add_to_thread_history m tid e now
  have hlen : ((add_to_thread m tid e now).history.length : Int) =
      (m.history.length : Int) + 1 := by
    rw [hh, List.length_append, List.length_singleton]
    push_cast
    ring
  constructor
  · intro tid' l hl i hi
    rw [add_to_thread_threads] at hl
    rw [hlen]
    by_cases he : tid' = tid
    · subst he
      rw [lookupA_updateA_self] at hl
      set base := if (lookupA tid' m.threads).isSome then m.threads
        else m.threads ++ [(tid', [])] with hbase
      cases hb : lookupA tid' base with
      | none => rw [hb] at hl; cases hl
      | some l0 =>
        rw [hb] at hl
        simp only [Option.map_some'] at hl
        have hl0 : ∀ i ∈ l0, 0 ≤ i ∧ i < (m.history.length : Int) := by
          rw [hbase] at hb
          by_cases hs : (lookupA tid' m.threads).isSome
          · rw [if_pos hs] at hb
            exact hm.1 tid' l0 hb
          · rw [if_neg hs] at hb
            rw [Option.not_isSome_iff_eq_none] at hs
            rw [lookupA_append_of_none hs, lookupA, if_pos rfl] at hb
            have hb' : l0 = [] := by
              injection hb with hb2
              exact hb2.symm
            subst hb'
            intro i hi
            cases hi
        injection hl with hl2
        rw [← hl2] at hi
        rcases List.mem_append.mp hi with h1 | h1
        · have := hl0 i h1
          omega
        · rw [List.mem_singleton] at h1
          subst h1
          constructor
          · positivity
          · omega
    · rw [lookupA_updateA_ne he] at hl
      have hl' : lookupA tid' m.threads = some l := by
        by_cases hs : (lookupA tid m.threads).isSome
        · rwa [if_pos hs] at hl
        · rw [if_neg hs] at hl
          cases hb : lookupA tid' m.threads with
          | some l0 =>
            rw [lookupA_append_of_some hb] at hl
            exact hl
          | none =>
            rw [lookupA_append_of_none hb, lookupA] at hl
            rw [if_neg (fun h3 => he h3.symm), lookupA] at hl
            cases hl
      have := hm.1 tid' l hl' i hi
      omega
  · intro w l hl i hi
    rw [add_to_thread_indexed] at hl
    rw [hlen]
    by_cases he : w ∈ tokensD (stampE e now)
    · have hnd : (tokensD (stampE e now)).Nodup := by
        unfold tokensD
        cases (stampE e now).content with
        | none => simp
        | some c => exact List.nodup_dedup _
      rw [indexEntry, lookupA_foldl_appendP_of_mem hnd he] at hl
      have hl' : l = (lookupA w m.indexed_content).getD [] ++ [(m.history.length : Int)] := by
        exact (Option.some_injective _ hl).symm
      rw [hl'] at hi
      rcases List.mem_append.mp hi with h1 | h1
      · cases hb : lookupA w m.indexed_content with
        | none => rw [hb] at h1; cases h1
        | some l0 =>
          rw [hb] at h1
          have := hm.2 w l0 hb i (by simpa using h1)
          omega
      · rw [List.mem_singleton] at h1
        subst h1
        constructor
        · positivity
        · omega
    · rw [indexEntry, lookupA_foldl_appendP_of_not_mem he] at hl
      have := hm.2 w l hl i hi
      omega

theorem idxBound_applyAdds (n : Int) (ops : List (String × Entry × String)) :
    IdxBound (applyAdds (initE n) ops) := by
  suffices hgen : ∀ (m : EMem), IdxBound m → IdxBound (applyAdds m ops) from
    hgen (initE n) (idxBound_initE n)
  induction ops with
  | nil => intro m hm; exact hm
  | cons o rest ih =>
    intro m hm
    rw [applyAdds, List.foldl_cons]
    exact ih _ (idxBound_add hm o.1 o.2.1 o.2.2)

/-! ### goodIndex is the invariant of the reachable states -/

theorem goodIndex_iff_occ (m : EMem) :
    goodIndex m ↔ ∀ w, (lookupA w m.indexed_content).getD [] = occ w m.history := by
  unfold goodIndex
  constructor <;> intro h w <;>
    have h2 := getD_lookupA_rebuildFrom w [] 0 m.history <;>
    simp only [lookupA, Option.getD_none, List.nil_append] at h2 <;>
    rw [h w, rebuildIndex, h2, occ]

theorem goodIndex_initE (n : Int) : goodIndex (initE n) := by
  intro w
  rfl

theorem goodIndex_add {m : EMem} (hm : goodIndex m) (tid : String) (e : Entry)
    (now : String) : goodIndex (add_to_thread m tid e now) := by
  rw [goodIndex_iff_occ] at hm ⊢
  intro w
  rw [add_to_thread_indexed, add_to_thread_history, getD_lookupA_indexEntry, hm w]
  conv_rhs => rw [occ, occFrom_append]
  rw [Nat.zero_add, ← occ]
  congr 1
  rw [occFrom, occFrom, tokensD_stampE]
  by_cases he : w ∈ tokensD e <;> simp [he]

theorem goodIndex_prune {m : EMem} (hm : goodIndex m) (k : Option Int) :
    goodIndex (prune_history m k) := by
  rw [goodIndex_iff_occ] at hm ⊢
  intro w
  unfold prune_history
  cases k with
  | none => exact hm w
  | some kv =>
    by_cases hk : kv = 0 ∨ (m.history.length : Int) ≤ kv
    · simp only [hk, if_true]
      exact hm w
    · simp only [hk, if_false]
      push_neg at hk
      rw [lookupA_mapVal]
      have hr0 : (0 : Int) ≤ (m.history.length : Int) - kv := by omega
      rw [← rebaseL_occ hr0 w, ← hm w]
      cases hb : lookupA w m.indexed_content with
      | none => simp [rebaseL]
      | some l => simp

theorem goodIndex_applyAdds (n : Int) (ops : List (String × Entry × String)) :
    goodIndex (applyAdds (initE n) ops) := by
  suffices hgen : ∀ (m : EMem), goodIndex m → goodIndex (applyAdds m ops) from
    hgen (initE n) (goodIndex_initE n)
  induction ops with
  | nil => intro m hm; exact hm
  | cons o rest ih =>
    intro m hm
    rw [applyAdds, List.foldl_cons]
    exact ih _ (goodIndex_add hm o.1 o.2.1 o.2.2)

theorem prune_history_fields {m : EMem} {k : Int} (h1 : k ≠ 0)
    (h2 : k < (m.history.length : Int)) :
    prune_history m (some k) = { m with
      history := m.history.drop ((m.history.length : Int) - k).toNat,
      threads := m.threads.map
        (fun p => (p.1, rebaseL ((m.history.length : Int) - k) p.2)),
      indexed_content := m.indexed_content.map
        (fun p => (p.1, rebaseL ((m.history.length : Int) - k) p.2)) } := by
  rw [prune_history, if_neg]
  push_neg
  exact ⟨h1, by omega⟩

/-- Common core of the two halves of C2: a surviving rebased index is
in-range and resolves, through the pruned history, to the content of the
originally appended entry at the shifted position. -/
theorem rebased_index_resolves {ops : List (String × Entry × String)} {n k : Int}
    {l0 : List Int} {i : Int}
    (hbound : ∀ j ∈ l0, 0 ≤ j ∧ j < ((applyAdds (initE n) ops).history.length : Int))
    (hk0 : 0 < k) (hklen : k < ((applyAdds (initE n) ops).history.length : Int))
    (hi : i ∈ rebaseL (((applyAdds (initE n) ops).history.length : Int) - k) l0) :
    0 ≤ i ∧
    i.toNat < (prune_history (applyAdds (initE n) ops) (some k)).history.length ∧
    ((prune_history (applyAdds (initE n) ops) (some k)).history[i.toNat]?).map
        Entry.content =
      (ops[i.toNat + ((applyAdds (initE n) ops).history.length - k.toNat)]?).map
        (fun o => o.2.1.content) := by
  set m := applyAdds (initE n) ops with hmdef
  set len := m.history.length with hlen
  set r : Int := (len : Int) - k with hr
  obtain ⟨i0, hi0l, hri0, hieq⟩ := mem_rebaseL hi
  obtain ⟨hi00, hi0len⟩ := hbound i0 hi0l
  have hprune := prune_history_fields (by omega : k ≠ 0) hklen
  have hhist : (prune_history m (some k)).history = m.history.drop r.toNat := by
    rw [hprune]
  have hlen' : (prune_history m (some k)).history.length = len - r.toNat := by
    rw [hhist, List.length_drop, hlen]
  refine ⟨by omega, by omega, ?_⟩
  have hmhist : m.history = ops.map (fun o => stampE o.2.1 o.2.2) := by
    rw [hmdef, applyAdds_history]
    simp [initE]
  rw [hhist, List.getElem?_drop]
  have hidx : r.toNat + i.toNat = i.toNat + (len - k.toNat) := by omega
  rw [hidx, hmhist, List.getElem?_map, Option.map_map]
  congr 1
  funext o
  simp only [Function.comp_apply, stampE_content]

/-- C2: after any sequence of `add_to_thread` appends followed by
`prune_history(k)` with `0 < k <` history length, every index stored in any
thread list or keyword posting list is non-negative, strictly below the new
history length, and resolves through the pruned history to the entry whose
content was originally appended at that logical position
(old index = new index + removed, removed = length - k). -/
theorem c2_prune_index_consistency (ops : List (String × Entry × String)) (n k : Int)
    (hk0 : 0 < k) (hklen : k < ((applyAdds (initE n) ops).history.length : Int)) :
    (∀ tid l, lookupA tid (prune_history (applyAdds (initE n) ops) (some k)).threads = some l →
      ∀ i ∈ l,
        0 ≤ i ∧
        i.toNat < (prune_history (applyAdds (initE n) ops) (some k)).history.length ∧
        ((prune_history (applyAdds (initE n) ops) (some k)).history[i.toNat]?).map
            Entry.content =
          (ops[i.toNat + ((applyAdds (initE n) ops).history.length - k.toNat)]?).map
            (fun o => o.2.1.content)) ∧
    (∀ w l, lookupA w (prune_history (applyAdds (initE n) ops) (some k)).indexed_content = some l →
      ∀ i ∈ l,
        0 ≤ i ∧
        i.toNat < (prune_history (applyAdds (initE n) ops) (some k)).history.length ∧
        ((prune_history (applyAdds (initE n) ops) (some k)).history[i.toNat]?).map
            Entry.content =
          (ops[i.toNat + ((applyAdds (initE n) ops).history.length - k.toNat)]?).map
            (fun o => o.2.1.content)) := by
  have hb := idxBound_applyAdds n ops
  have hprune := prune_history_fields (by omega : k ≠ 0) hklen
  constructor
  · intro tid l hl i hi
    rw [hprune] at hl
    simp only at hl
    rw [lookupA_mapVal] at hl
    cases hl0 : lookupA tid (applyAdds (initE n) ops).threads with
    | none => rw [hl0] at hl; cases hl
    | some l0 =>
      rw [hl0] at hl
      simp only [Option.map_some'] at hl
      injection hl with hl2
      rw [← hl2] at hi
      exact rebased_index_resolves (hb.1 tid l0 hl0) hk0 hklen hi
  · intro w l hl i hi
    rw [hprune] at hl
    simp only at hl
    rw [lookupA_mapVal] at hl
    cases hl0 : lookupA w (applyAdds (initE n) ops).indexed_content with
    | none => rw [hl0] at hl; cases hl
    | some l0 =>
      rw [hl0] at hl
      simp only [Option.map_some'] at hl
      injection hl with hl2
      rw [← hl2] at hi
      exact rebased_index_resolves (hb.2 w l0 hl0) hk0 hklen hi

/-- Witness for C2: two appends to threads "a" and "b", then `prune(1)`. -/
theorem c2_prune_index_consistency_witness :
    (0 : Int) < 1 ∧
    (1 : Int) < ((applyAdds (initE 100)
      [("a", ⟨none, some "one", none, none⟩, "t0"),
       ("b", ⟨none, some "one two", none, none⟩, "t1")]).history.length : Int) ∧
    ((∀ tid l, lookupA tid (prune_history (applyAdds (initE 100)
        [("a", ⟨none, some "one", none, none⟩, "t0"),
         ("b", ⟨none, some "one two", none, none⟩, "t1")]) (some 1)).threads = some l →
      ∀ i ∈ l,
        0 ≤ i ∧
        i.toNat < (prune_history (applyAdds (initE 100)
          [("a", ⟨none, some "one", none, none⟩, "t0"),
           ("b", ⟨none, some "one two", none, none⟩, "t1")]) (some 1)).history.length ∧
        ((prune_history (applyAdds (initE 100)
          [("a", ⟨none, some "one", none, none⟩, "t0"),
           ("b", ⟨none, some "one two", none, none⟩, "t1")]) (some 1)).history[i.toNat]?).map
            Entry.content =
          ([("a", (⟨none, some "one", none, none⟩ : Entry), "t0"),
            ("b", (⟨none, some "one two", none, none⟩ : Entry), "t1")][i.toNat +
              ((applyAdds (initE 100)
                [("a", ⟨none, some "one", none, none⟩, "t0"),
                 ("b", ⟨none, some "one two", none, none⟩, "t1")]).history.length -
                (1 : Int).toNat)]?).map (fun o => o.2.1.content)) ∧
    (∀ w l, lookupA w (prune_history (applyAdds (initE 100)
        [("a", ⟨none, some "one", none, none⟩, "t0"),
         ("b", ⟨none, some "one two", none, none⟩, "t1")]) (some 1)).indexed_content = some l →
      ∀ i ∈ l,
        0 ≤ i ∧
        i.toNat < (prune_history (applyAdds (initE 100)
          [("a", ⟨none, some "one", none, none⟩, "t0"),
           ("b", ⟨none, some "one two", none, none⟩, "t1")]) (some 1)).history.length ∧
        ((prune_history (applyAdds (initE 100)
          [("a", ⟨none, some "one", none, none⟩, "t0"),
           ("b", ⟨none, some "one two", none, none⟩, "t1")]) (some 1)).history[i.toNat]?).map
            Entry.content =
          ([("a", (⟨none, some "one", none, none⟩ : Entry), "t0"),
            ("b", (⟨none, some "one two", none, none⟩ : Entry), "t1")][i.toNat +
              ((applyAdds (initE 100)
                [("a", ⟨none, some "one", none, none⟩, "t0"),
                 ("b", ⟨none, some "one two", none, none⟩, "t1")]).history.length -
                (1 : Int).toNat)]?).map (fun o => o.2.1.content))) :=
  ⟨by decide, by decide,
    c2_prune_index_consistency
      [("a", ⟨none, some "one", none, none⟩, "t0"),
       ("b", ⟨none, some "one two", none, none⟩, "t1")] 100 1 (by decide) (by decide)⟩

/-! ### ToolCache lemmas -/

theorem toolCacheSet_some_fields {c c' : ToolCache} {n : String}
    {a : List (String × JVal)} {r : JVal} {t : Int}
    (h : toolCacheSet c n a r t = some c') :
    c'.ttl = c.ttl ∧ c'.max_size = c.max_size ∧
    lookupA (generate_key n a) c'.cache = some (r, t) := by
  obtain ⟨cc, cms, cttl⟩ := c
  unfold toolCacheSet at h
  by_cases hg : ((cc.length : Int) ≥ cms ∧ lookupA (generate_key n a) cc = none)
  · rw [if_pos hg] at h
    cases cc with
    | nil => cases h
    | cons p rest =>
      simp only [Option.some_inj] at h
      rw [← h]
      exact ⟨rfl, rfl, lookupA_setA_self ..⟩
  · rw [if_neg hg] at h
    simp only [Option.some_inj] at h
    rw [← h]
    exact ⟨rfl, rfl, lookupA_setA_self ..⟩

theorem nodup_keys_toolCacheSet {c c' : ToolCache} {n : String}
    {a : List (String × JVal)} {r : JVal} {t : Int}
    (hnd : (c.cache.map Prod.fst).Nodup)
    (h : toolCacheSet c n a r t = some c') : (c'.cache.map Prod.fst).Nodup := by
  obtain ⟨cc, cms, cttl⟩ := c
  unfold toolCacheSet at h
  simp only at hnd
  by_cases hg : ((cc.length : Int) ≥ cms ∧ lookupA (generate_key n a) cc = none)
  · rw [if_pos hg] at h
    cases cc with
    | nil => cases h
    | cons p rest =>
      simp only [Option.some_inj] at h
      rw [← h]
      have hk : lookupA (generate_key n a) rest = none := by
        have h2 := hg.2
        rw [lookupA] at h2
        by_cases hp : p.1 = generate_key n a
        · rw [if_pos hp] at h2; cases h2
        · rwa [if_neg hp] at h2
      simp only
      rw [setA_of_absent hk]
      simp only [List.map_cons, List.nodup_cons] at hnd
      simp only [List.map_append, List.map_cons, List.map_nil, List.nodup_append]
      refine ⟨hnd.2, by simp, ?_⟩
      intro x hx
      simp only [List.mem_singleton]
      intro hxk
      rw [hxk] at hx
      exact (lookupA_eq_none_iff _ _).mp hk hx
  · rw [if_neg hg] at h
    simp only [Option.some_inj] at h
    rw [← h]
    simp only
    cases hl : lookupA (generate_key n a) cc with
    | some v =>
      rw [map_fst_setA_of_mem (by rw [hl]; rfl)]
      exact hnd
    | none =>
      rw [setA_of_absent hl]
      simp only [List.map_append, List.map_cons, List.map_nil, List.nodup_append]
      refine ⟨hnd, by simp, ?_⟩
      intro x hx
      simp only [List.mem_singleton]
      intro hxk
      rw [hxk] at hx
      exact (lookupA_eq_none_iff _ _).mp hl hx

/-- C4 (amended): `get`, `remove` and `clear` are total and treat a missing
key as absent / no-op; `set` is total whenever `max_size ≥ 1`.  (As stated
over every configuration the claim fails: with `max_size ≤ 0`, `set` of a
new key on an empty cache evaluates `next(iter({}))`, raising
`StopIteration` — see the counterexample.) -/
theorem c4_cache_totality (c : ToolCache) (tool_name : String)
    (args : List (String × JVal)) (result : JVal) (now : Int) :
    (lookupA (generate_key tool_name args) c.cache = none →
      toolCacheGet c tool_name args now = (none, c)) ∧
    (lookupA (generate_key tool_name args) c.cache = none →
      toolCacheRemove c tool_name args = c) ∧
    toolCacheClear c = { c with cache := [] } ∧
    (1 ≤ c.max_size → (toolCacheSet c tool_name args result now).isSome = true) := by
  refine ⟨?_, ?_, rfl, ?_⟩
  · intro h
    simp only [toolCacheGet, h]
  · intro h
    simp only [toolCacheRemove, h]
    rfl
  · intro h1
    unfold toolCacheSet
    by_cases hg : ((c.cache.length : Int) ≥ c.max_size ∧
        lookupA (generate_key tool_name args) c.cache = none)
    · rw [if_pos hg]
      cases hc : c.cache with
      | nil =>
        exfalso
        rw [hc] at hg
        have h2 := hg.1
        simp only [List.length_nil, Nat.cast_zero, ge_iff_le] at h2
        omega
      | cons p rest => rfl
    · rw [if_neg hg]
      rfl

/-- C4 counterexample: with `max_size = 0`, inserting a new key into the
empty cache reaches `next(iter(self.cache))` on an empty dict and raises
`StopIteration`; the claim asserts no operation ever raises. -/
theorem c4_set_raises_counterexample :
    toolCacheSet (mkToolCache 0 none) "f" [] (JVal.num 1) 0 = none := by decide

/-- C6: with `ttl = T`, a `get` of a freshly `set` key more than `T` after
the insertion timestamp returns absent and deletes the entry; at elapsed
time ≤ `T` it returns the stored value; with `ttl` unset the value is
returned and the cache is untouched, at any elapsed time. -/
theorem c6_ttl_expiry (c c1 : ToolCache) (n : String) (a : List (String × JVal))
    (v : JVal) (t0 t1 : Int)
    (hnd : (c.cache.map Prod.fst).Nodup)
    (hset : toolCacheSet c n a v t0 = some c1) :
    (∀ T, c.ttl = some T → t1 - t0 > T →
      (toolCacheGet c1 n a t1).1 = none ∧
      lookupA (generate_key n a) (toolCacheGet c1 n a t1).2.cache = none) ∧
    (∀ T, c.ttl = some T → t1 - t0 ≤ T → (toolCacheGet c1 n a t1).1 = some v) ∧
    (c.ttl = none → toolCacheGet c1 n a t1 = (some v, c1)) := by
  obtain ⟨httl, _, hkey⟩ := toolCacheSet_some_fields hset
  have hnd1 := nodup_keys_toolCacheSet hnd hset
  refine ⟨?_, ?_, ?_⟩
  · intro T hT hgt
    rw [hT] at httl
    simp only [toolCacheGet, hkey, httl]
    rw [if_pos hgt]
    exact ⟨rfl, lookupA_eraseA_self hnd1⟩
  · intro T hT hle
    rw [hT] at httl
    simp only [toolCacheGet, hkey, httl]
    rw [if_neg (by omega)]
  · intro hT
    rw [hT] at httl
    simp only [toolCacheGet, hkey, httl]

/-- Witness for C4 with a nonempty cache and a key not present in it. -/
theorem c4_cache_totality_witness :
    lookupA (generate_key "g" []) (ToolCache.mk
      [(generate_key "f" [], (JVal.num 1, 0))] 10 none).cache = none ∧
    (1 : Int) ≤ (ToolCache.mk [(generate_key "f" [], (JVal.num 1, 0))] 10 none).max_size ∧
    ((lookupA (generate_key "g" []) (ToolCache.mk
        [(generate_key "f" [], (JVal.num 1, 0))] 10 none).cache = none →
      toolCacheGet (ToolCache.mk [(generate_key "f" [], (JVal.num 1, 0))] 10 none) "g" [] 0 =
        (none, ToolCache.mk [(generate_key "f" [], (JVal.num 1, 0))] 10 none)) ∧
    (lookupA (generate_key "g" []) (ToolCache.mk
        [(generate_key "f" [], (JVal.num 1, 0))] 10 none).cache = none →
      toolCacheRemove (ToolCache.mk [(generate_key "f" [], (JVal.num 1, 0))] 10 none) "g" [] =
        ToolCache.mk [(generate_key "f" [], (JVal.num 1, 0))] 10 none) ∧
    toolCacheClear (ToolCache.mk [(generate_key "f" [], (JVal.num 1, 0))] 10 none) =
      { ToolCache.mk [(generate_key "f" [], (JVal.num 1, 0))] 10 none with cache := [] } ∧
    ((1 : Int) ≤ (ToolCache.mk [(generate_key "f" [], (JVal.num 1, 0))] 10 none).max_size →
      (toolCacheSet (ToolCache.mk [(generate_key "f" [], (JVal.num 1, 0))] 10 none)
        "g" [] (JVal.num 2) 0).isSome = true)) :=
  ⟨by decide, by decide,
    c4_cache_totality (ToolCache.mk [(generate_key "f" [], (JVal.num 1, 0))] 10 none)
      "g" [] (JVal.num 2) 0⟩

/-- Witness for C6: `ttl = 5`, insertion at time 0, expired read at time 6,
fresh read at time 3. -/
theorem c6_ttl_expiry_witness :
    ((mkToolCache 10 (some 5)).cache.map Prod.fst).Nodup ∧
    toolCacheSet (mkToolCache 10 (some 5)) "f" [] (JVal.num 1) 0 =
      some (ToolCache.mk [(generate_key "f" [], (JVal.num 1, 0))] 10 (some 5)) ∧
    (toolCacheGet (ToolCache.mk [(generate_key "f" [], (JVal.num 1, 0))] 10 (some 5))
      "f" [] 6).1 = none ∧
    lookupA (generate_key "f" [])
      (toolCacheGet (ToolCache.mk [(generate_key "f" [], (JVal.num 1, 0))] 10 (some 5))
        "f" [] 6).2.cache = none ∧
    (toolCacheGet (ToolCache.mk [(generate_key "f" [], (JVal.num 1, 0))] 10 (some 5))
      "f" [] 3).1 = some (JVal.num 1) :=
  ⟨by decide, by decide,
    ((c6_ttl_expiry (mkToolCache 10 (some 5)) _ "f" [] (JVal.num 1) 0 6
        (by decide) (by decide)).1 5 rfl (by decide)).1,
    ((c6_ttl_expiry (mkToolCache 10 (some 5)) _ "f" [] (JVal.num 1) 0 6
        (by decide) (by decide)).1 5 rfl (by decide)).2,
    (c6_ttl_expiry (mkToolCache 10 (some 5)) _ "f" [] (JVal.num 1) 0 3
        (by decide) (by decide)).2.1 5 rfl (by decide)⟩

/-- C10: `set` on a key already present overwrites its stored result and
refreshes its timestamp, evicts nothing, and leaves the key at its original
dict position — the FIFO eviction order is unchanged, so re-setting does not
postpone the key's eviction. -/
theorem c10_set_existing_key (c : ToolCache) (n : String) (a : List (String × JVal))
    (r0 r : JVal) (t0 t : Int)
    (hpresent : lookupA (generate_key n a) c.cache = some (r0, t0)) :
    toolCacheSet c n a r t =
      some { c with cache := setA (generate_key n a) (r, t) c.cache } ∧
    (setA (generate_key n a) (r, t) c.cache).map Prod.fst = c.cache.map Prod.fst ∧
    lookupA (generate_key n a) (setA (generate_key n a) (r, t) c.cache) = some (r, t) ∧
    (∀ k', k' ≠ generate_key n a →
      lookupA k' (setA (generate_key n a) (r, t) c.cache) = lookupA k' c.cache) := by
  refine ⟨?_, map_fst_setA_of_mem (by rw [hpresent]; rfl) _,
    lookupA_setA_self .., fun k' hk' => lookupA_setA_ne hk' ..⟩
  unfold toolCacheSet
  rw [if_neg]
  intro hg
  rw [hpresent] at hg
  cases hg.2

/-- Witness for C10: overwriting the first of two cached keys. -/
theorem c10_set_existing_key_witness :
    lookupA (generate_key "f" []) (ToolCache.mk
      [(generate_key "f" [], (JVal.num 1, 0)), (generate_key "g" [], (JVal.num 2, 0))]
      2 none).cache = some (JVal.num 1, 0) ∧
    (toolCacheSet (ToolCache.mk
        [(generate_key "f" [], (JVal.num 1, 0)), (generate_key "g" [], (JVal.num 2, 0))]
        2 none) "f" [] (JVal.num 9) 7 =
      some (ToolCache.mk
        (setA (generate_key "f" []) (JVal.num 9, 7)
          (ToolCache.mk
            [(generate_key "f" [], (JVal.num 1, 0)), (generate_key "g" [], (JVal.num 2, 0))]
            2 none).cache) 2 none) ∧
    (setA (generate_key "f" []) (JVal.num 9, 7)
        (ToolCache.mk
          [(generate_key "f" [], (JVal.num 1, 0)), (generate_key "g" [], (JVal.num 2, 0))]
          2 none).cache).map Prod.fst =
      (ToolCache.mk
        [(generate_key "f" [], (JVal.num 1, 0)), (generate_key "g" [], (JVal.num 2, 0))]
        2 none).cache.map Prod.fst ∧
    lookupA (generate_key "f" [])
      (setA (generate_key "f" []) (JVal.num 9, 7)
        (ToolCache.mk
          [(generate_key "f" [], (JVal.num 1, 0)), (generate_key "g" [], (JVal.num 2, 0))]
          2 none).cache) = some (JVal.num 9, 7) ∧
    (∀ k', k' ≠ generate_key "f" [] →
      lookupA k' (setA (generate_key "f" []) (JVal.num 9, 7)
        (ToolCache.mk
          [(generate_key "f" [], (JVal.num 1, 0)), (generate_key "g" [], (JVal.num 2, 0))]
          2 none).cache) =
      lookupA k' (ToolCache.mk
        [(generate_key "f" [], (JVal.num 1, 0)), (generate_key "g" [], (JVal.num 2, 0))]
        2 none).cache)) :=
  ⟨by decide,
    c10_set_existing_key (ToolCache.mk
      [(generate_key "f" [], (JVal.num 1, 0)), (generate_key "g" [], (JVal.num 2, 0))]
      2 none) "f" [] (JVal.num 1) (JVal.num 9) 0 7 (by decide)⟩

/-- Filling a cache that has room for all the (fresh, pairwise-distinct)
keys being inserted: every `set` lands in the non-evicting branch and
appends at the end, in call order. -/
theorem foldlM_toolCacheSet_fill (t : Int) :
    ∀ (calls : List (String × List (String × JVal) × JVal)) (c : ToolCache),
    (c.cache.map Prod.fst ++ calls.map (fun cl => generate_key cl.1 cl.2.1)).Nodup →
    ((c.cache.length : Int) + calls.length ≤ c.max_size) →
    calls.foldlM (fun c cl => toolCacheSet c cl.1 cl.2.1 cl.2.2 t) c =
      some { c with cache :=
        c.cache ++ calls.map (fun cl => (generate_key cl.1 cl.2.1, (cl.2.2, t))) } := by
  intro calls
  induction calls with
  | nil =>
    intro c _ _
    simp [List.foldlM_nil]
  | cons cl rest ih =>
    intro c hnd hlen
    have hkey : lookupA (generate_key cl.1 cl.2.1) c.cache = none := by
      rw [lookupA_eq_none_iff]
      intro hmem
      rw [List.map_cons, List.nodup_append] at hnd
      exact hnd.2.2 hmem (List.mem_cons_self _ _)
    have hset : toolCacheSet c cl.1 cl.2.1 cl.2.2 t =
        some { c with cache := c.cache ++ [(generate_key cl.1 cl.2.1, (cl.2.2, t))] } := by
      unfold toolCacheSet
      rw [if_neg, setA_of_absent hkey]
      intro hg
      have h1 := hg.1
      simp only [List.length_cons] at hlen
      push_cast at hlen
      omega
    rw [List.foldlM_cons, hset]
    simp only [Option.bind_eq_bind, Option.some_bind]
    rw [ih]
    · simp only [List.map_cons, List.append_assoc, List.singleton_append]
    · simp only [List.map_append, List.map_cons, List.map_nil]
      have : (c.cache.map Prod.fst ++ [generate_key cl.1 cl.2.1]) ++
          rest.map (fun cl => generate_key cl.1 cl.2.1) =
          c.cache.map Prod.fst ++ generate_key cl.1 cl.2.1 ::
            rest.map (fun cl => generate_key cl.1 cl.2.1) := by
        rw [List.append_assoc, List.singleton_append]
      rw [this]
      simpa using hnd
    · simp only [List.length_append, List.length_cons, List.length_map, List.length_nil]
      simp only [List.length_cons] at hlen
      push_cast at hlen ⊢
      omega

/-- C3: with `max_size = N ≥ 1`, `N + 1` `set` calls with pairwise-distinct
keys starting from an empty cache leave exactly `N` entries, the evicted key
being the earliest-inserted (FIFO by insertion); and `get` never mutates an
un-TTL'd cache, so reads cannot protect a key from eviction. -/
theorem c3_fifo_eviction (N : Nat)
    (calls : List (String × List (String × JVal) × JVal)) (t : Int)
    (hN : 1 ≤ N) (hlen : calls.length = N + 1)
    (hnd : (calls.map (fun cl => generate_key cl.1 cl.2.1)).Nodup) :
    (calls.foldlM (fun c cl => toolCacheSet c cl.1 cl.2.1 cl.2.2 t)
        (mkToolCache (N : Int) none) =
      some (ToolCache.mk
        ((calls.drop 1).map (fun cl => (generate_key cl.1 cl.2.1, (cl.2.2, t))))
        (N : Int) none)) ∧
    ((calls.drop 1).map (fun cl => (generate_key cl.1 cl.2.1, (cl.2.2, t)))).length = N ∧
    (∀ (c : ToolCache) (n : String) (a : List (String × JVal)) (t' : Int),
      c.ttl = none → (toolCacheGet c n a t').2 = c) := by
  refine ⟨?_, by simp [hlen], ?_⟩
  · rcases List.eq_nil_or_concat calls with hcalls | ⟨front, last, hcalls⟩
    · rw [hcalls] at hlen; cases hlen
    rw [List.concat_eq_append] at hcalls
    subst hcalls
    have hfront : front.length = N := by
      simp only [List.length_append, List.length_cons, List.length_nil] at hlen
      omega
    have hndf : ((mkToolCache (N : Int) none).cache.map Prod.fst ++
        front.map (fun cl => generate_key cl.1 cl.2.1)).Nodup := by
      simp only [mkToolCache, List.map_nil, List.nil_append]
      rw [List.map_append] at hnd
      exact hnd.of_append_left
    have hfill := foldlM_toolCacheSet_fill t front (mkToolCache (N : Int) none) hndf
      (by simp [mkToolCache, hfront])
    rw [List.foldlM_append, hfill]
    simp only [Option.bind_eq_bind, Option.some_bind, mkToolCache, List.nil_append,
      List.foldlM_cons, List.foldlM_nil]
    have hkeyfresh : lookupA (generate_key last.1 last.2.1)
        (front.map (fun cl => (generate_key cl.1 cl.2.1, (cl.2.2, t)))) = none := by
      rw [lookupA_eq_none_iff, List.map_map]
      intro hmem
      rw [List.map_append, List.nodup_append] at hnd
      have hmem2 : generate_key last.1 last.2.1 ∈
          front.map (fun cl => generate_key cl.1 cl.2.1) := by simpa using hmem
      exact hnd.2.2 hmem2 (by simp)
    cases hf : front with
    | nil =>
      exfalso
      rw [hf] at hfront
      simp only [List.length_nil] at hfront
      omega
    | cons f0 frest =>
      subst hf
      have h8 : lookupA (generate_key last.1 last.2.1)
          (frest.map (fun cl => (generate_key cl.1 cl.2.1, (cl.2.2, t)))) = none := by
        have h7 := hkeyfresh
        rw [List.map_cons, lookupA_cons] at h7
        by_cases hcond : generate_key f0.1 f0.2.1 = generate_key last.1 last.2.1
        · rw [if_pos hcond] at h7; cases h7
        · rwa [if_neg hcond] at h7
      have hset : toolCacheSet (ToolCache.mk
          ((f0 :: frest).map (fun cl => (generate_key cl.1 cl.2.1, (cl.2.2, t))))
          (N : Int) none) last.1 last.2.1 last.2.2 t =
          some (ToolCache.mk
            (frest.map (fun cl => (generate_key cl.1 cl.2.1, (cl.2.2, t))) ++
              [(generate_key last.1 last.2.1, (last.2.2, t))]) (N : Int) none) := by
        unfold toolCacheSet
        rw [if_pos]
        · simp only [List.map_cons, Option.some_inj]
          rw [setA_of_absent h8]
        · refine ⟨?_, hkeyfresh⟩
          simp only [List.length_map, List.length_cons, ge_iff_le]
          have h9 : (f0 :: frest).length = N := hfront
          simp only [List.length_cons] at h9
          push_cast
          omega
      rw [hset]
      simp
  · intro c n a t' httl
    simp only [toolCacheGet]
    cases hl : lookupA (generate_key n a) c.cache with
    | none => rfl
    | some rt =>
      obtain ⟨r0, ts0⟩ := rt
      rw [httl]

/-- Witness for C3: `maxSize = 2`; `set("f",{},1)`, `set("g",{},2)`,
`set("h",{},3)`; then `get("f",{})` is absent, `get("g",{}) = 2`,
`get("h",{}) = 3`. -/
theorem c3_fifo_eviction_witness :
    1 ≤ 2 ∧
    ([("f", ([] : List (String × JVal)), JVal.num 1),
      ("g", ([] : List (String × JVal)), JVal.num 2),
      ("h", ([] : List (String × JVal)), JVal.num 3)].map
        (fun cl => generate_key cl.1 cl.2.1)).Nodup ∧
    ([("f", ([] : List (String × JVal)), JVal.num 1),
      ("g", ([] : List (String × JVal)), JVal.num 2),
      ("h", ([] : List (String × JVal)), JVal.num 3)].foldlM
        (fun c cl => toolCacheSet c cl.1 cl.2.1 cl.2.2 0)
        (mkToolCache ((2 : Nat) : Int) none) =
      some (ToolCache.mk
        [(generate_key "g" [], (JVal.num 2, 0)), (generate_key "h" [], (JVal.num 3, 0))]
        ((2 : Nat) : Int) none)) ∧
    (toolCacheGet (ToolCache.mk
      [(generate_key "g" [], (JVal.num 2, 0)), (generate_key "h" [], (JVal.num 3, 0))]
      ((2 : Nat) : Int) none) "f" [] 0).1 = none ∧
    (toolCacheGet (ToolCache.mk
      [(generate_key "g" [], (JVal.num 2, 0)), (generate_key "h" [], (JVal.num 3, 0))]
      ((2 : Nat) : Int) none) "g" [] 0).1 = some (JVal.num 2) ∧
    (toolCacheGet (ToolCache.mk
      [(generate_key "g" [], (JVal.num 2, 0)), (generate_key "h" [], (JVal.num 3, 0))]
      ((2 : Nat) : Int) none) "h" [] 0).1 = some (JVal.num 3) :=
  ⟨by decide, by decide,
    (c3_fifo_eviction 2
      [("f", ([] : List (String × JVal)), JVal.num 1),
       ("g", ([] : List (String × JVal)), JVal.num 2),
       ("h", ([] : List (String × JVal)), JVal.num 3)] 0
      (by decide) (by decide) (by decide)).1,
    by decide, by decide, by decide⟩

/-! ### Cache-key stability (C7) -/

/-- Strict key order, used only to identify the sorted argument lists. -/
def keyLt (p q : String × JVal) : Prop := p.1 < q.1

instance : IsAntisymm (String × JVal) keyLt :=
  ⟨fun _ _ h h' => absurd h' (lt_asymm h)⟩

theorem sorted_keyLt_insertionSort {l : List (String × JVal)}
    (hnd : (l.map Prod.fst).Nodup) :
    (List.insertionSort keyLe l).Sorted keyLt := by
  have hle : (List.insertionSort keyLe l).Sorted keyLe :=
    List.sorted_insertionSort keyLe l
  have hnd' : ((List.insertionSort keyLe l).map Prod.fst).Nodup :=
    (((List.perm_insertionSort keyLe l).map Prod.fst).nodup_iff).mpr hnd
  have hne : (List.insertionSort keyLe l).Pairwise (fun p q => p.1 ≠ q.1) := by
    rw [List.Nodup, List.pairwise_map] at hnd'
    exact hnd'
  exact (hle.and hne).imp (fun h => lt_of_le_of_ne h.1 h.2)

theorem insertionSort_keyLe_perm_eq {a1 a2 : List (String × JVal)}
    (hnd : (a1.map Prod.fst).Nodup) (hp : a1.Perm a2) :
    List.insertionSort keyLe a1 = List.insertionSort keyLe a2 := by
  have hnd2 : (a2.map Prod.fst).Nodup := ((hp.map Prod.fst).nodup_iff).mp hnd
  exact List.eq_of_perm_of_sorted
    ((List.perm_insertionSort keyLe a1).trans
      (hp.trans (List.perm_insertionSort keyLe a2).symm))
    (sorted_keyLt_insertionSort hnd) (sorted_keyLt_insertionSort hnd2)

/-- C7: the cache key is invariant under reordering of the argument
mapping's entries — `json.dumps(args, sort_keys=True)` canonicalizes the
key order before serialization. -/
theorem c7_key_stability (tool_name : String) (a1 a2 : List (String × JVal))
    (hnd : (a1.map Prod.fst).Nodup) (hp : a1.Perm a2) :
    generate_key tool_name a1 = generate_key tool_name a2 := by
  unfold generate_key jsonDumpsSorted
  rw [insertionSort_keyLe_perm_eq hnd hp]

/-- Witness for C7: the same two bindings in both orders. -/
theorem c7_key_stability_witness :
    (([("b", JVal.num 1), ("a", JVal.str "x")].map
      (Prod.fst (β := JVal))).Nodup) ∧
    ([("b", JVal.num 1), ("a", JVal.str "x")].Perm
      [("a", JVal.str "x"), ("b", JVal.num 1)]) ∧
    generate_key "g" [("b", JVal.num 1), ("a", JVal.str "x")] =
      generate_key "g" [("a", JVal.str "x"), ("b", JVal.num 1)] :=
  ⟨by decide, List.Perm.swap _ _ _,
    c7_key_stability "g" _ _ (by decide) (List.Perm.swap _ _ _)⟩

/-! ### Persistence claims (C1, C5) -/

/-- C1 (amended): `load_from_file` swallows every failure (the exception is
printed, not propagated), and atomicity holds only up to the point the body
reached: a missing file, malformed JSON, or absent `"history"` leaves the
state untouched, but valid JSON with `"history"` present and `"threads"`
absent replaces `history` while `threads`, `current_thread` and the keyword
index keep their prior values — a partial mutation. -/
theorem c1_load_failure_behavior (m : EMem) (d : LoadData) :
    load_from_file m none = m ∧
    (d.history = none → load_from_file m (some d) = m) ∧
    (∀ h, d.history = some h → d.threads = none →
      load_from_file m (some d) = { m with history := h }) ∧
    (∀ h t, d.history = some h → d.threads = some t →
      load_from_file m (some d) =
        { m with history := h, threads := t,
                 current_thread := d.current_thread.getD "default",
                 indexed_content := rebuildIndex h }) := by
  obtain ⟨dh, dt, dc⟩ := d
  refine ⟨rfl, ?_, ?_, ?_⟩
  · intro hh
    simp only at hh
    subst hh
    rfl
  · intro h hh ht
    simp only at hh ht
    subst hh
    subst ht
    rfl
  · intro h t hh ht
    simp only at hh ht
    subst hh
    subst ht
    rfl

/-- Witness for C1 (amended), on a concrete one-entry state and a snapshot
holding `history` but no `threads`. -/
theorem c1_load_failure_behavior_witness :
    (LoadData.mk (some []) none none).history = some [] ∧
    (LoadData.mk (some []) none none).threads = none ∧
    (load_from_file
        (add_to_thread (initE 100) "default" ⟨none, some "hello", none, none⟩ "t0")
        (some (LoadData.mk (some []) none none))).history = [] ∧
    (load_from_file
        (add_to_thread (initE 100) "default" ⟨none, some "hello", none, none⟩ "t0")
        (some (LoadData.mk (some []) none none))).threads =
      (add_to_thread (initE 100) "default"
        ⟨none, some "hello", none, none⟩ "t0").threads :=
  ⟨rfl, rfl,
    by rw [(c1_load_failure_behavior
        (add_to_thread (initE 100) "default" ⟨none, some "hello", none, none⟩ "t0")
        (LoadData.mk (some []) none none)).2.2.1 [] rfl rfl],
    by rw [(c1_load_failure_behavior
        (add_to_thread (initE 100) "default" ⟨none, some "hello", none, none⟩ "t0")
        (LoadData.mk (some []) none none)).2.2.1 [] rfl rfl]⟩

/-- C1 counterexample: loading valid JSON that lacks the required
`"threads"` field replaces `history` (the store is partially mutated and the
prior state is not preserved), contradicting the claim. -/
theorem c1_partial_mutation_counterexample :
    load_from_file
        (add_to_thread (initE 100) "default" ⟨none, some "hello", none, none⟩ "t0")
        (some (LoadData.mk (some []) none none)) ≠
      add_to_thread (initE 100) "default" ⟨none, some "hello", none, none⟩ "t0" ∧
    (load_from_file
        (add_to_thread (initE 100) "default" ⟨none, some "hello", none, none⟩ "t0")
        (some (LoadData.mk (some []) none none))).history = [] ∧
    (add_to_thread (initE 100) "default"
        ⟨none, some "hello", none, none⟩ "t0").history ≠ [] ∧
    (load_from_file
        (add_to_thread (initE 100) "default" ⟨none, some "hello", none, none⟩ "t0")
        (some (LoadData.mk (some []) none none))).threads =
      (add_to_thread (initE 100) "default"
        ⟨none, some "hello", none, none⟩ "t0").threads ∧
    (load_from_file
        (add_to_thread (initE 100) "default" ⟨none, some "hello", none, none⟩ "t0")
        (some (LoadData.mk (some []) none none))).indexed_content =
      (add_to_thread (initE 100) "default"
        ⟨none, some "hello", none, none⟩ "t0").indexed_content := by
  refine ⟨?_, by decide, by decide, by decide, by decide⟩
  intro hcontra
  have h1 : (load_from_file
      (add_to_thread (initE 100) "default" ⟨none, some "hello", none, none⟩ "t0")
      (some (LoadData.mk (some []) none none))).history =
      (add_to_thread (initE 100) "default" ⟨none, some "hello", none, none⟩ "t0").history := by
    rw [hcontra]
  revert h1
  decide

/-- C5: saving and reloading reproduces `history`, `threads` and
`current_thread` exactly, and the mandated full index rebuild yields, for
every word occurring in the reloaded content, the same posting list the
(wellformed) store held before the save. -/
theorem c5_save_load_roundtrip (m m2 : EMem) (hg : goodIndex m) :
    (load_from_file m2 (some (save_to_file m))).history = m.history ∧
    (load_from_file m2 (some (save_to_file m))).threads = m.threads ∧
    (load_from_file m2 (some (save_to_file m))).current_thread = m.current_thread ∧
    ∀ w e, e ∈ m.history → w ∈ tokensD e →
      lookupA w (load_from_file m2 (some (save_to_file m))).indexed_content =
        lookupA w m.indexed_content := by
  have hload : load_from_file m2 (some (save_to_file m)) =
      { m2 with history := m.history,
                threads := m.threads,
                current_thread := m.current_thread,
                indexed_content := rebuildIndex m.history } := by
    rfl
  rw [hload]
  refine ⟨rfl, rfl, rfl, ?_⟩
  intro w e he hw
  have hocc : occ w m.history ≠ [] := occ_ne_nil_of_mem he hw
  have h1 : lookupA w (rebuildIndex m.history) = some (occ w m.history) := by
    rw [lookupA_rebuildIndex, if_neg hocc]
  rw [goodIndex_iff_occ] at hg
  have h2 := hg w
  cases hb : lookupA w m.indexed_content with
  | none =>
    rw [hb] at h2
    simp only [Option.getD_none] at h2
    exact absurd h2.symm hocc
  | some l =>
    rw [hb] at h2
    simp only [Option.getD_some] at h2
    rw [h1, h2]

/-- Witness for C5 on a concrete one-append store. -/
theorem c5_save_load_roundtrip_witness :
    goodIndex (applyAdds (initE 100)
      [("default", ⟨some "user", some "i like cats", none, none⟩, "t0")]) ∧
    ((load_from_file (initE 100) (some (save_to_file (applyAdds (initE 100)
        [("default", ⟨some "user", some "i like cats", none, none⟩, "t0")])))).history =
      (applyAdds (initE 100)
        [("default", ⟨some "user", some "i like cats", none, none⟩, "t0")]).history ∧
    (load_from_file (initE 100) (some (save_to_file (applyAdds (initE 100)
        [("default", ⟨some "user", some "i like cats", none, none⟩, "t0")])))).threads =
      (applyAdds (initE 100)
        [("default", ⟨some "user", some "i like cats", none, none⟩, "t0")]).threads ∧
    (load_from_file (initE 100) (some (save_to_file (applyAdds (initE 100)
        [("default", ⟨some "user", some "i like cats", none, none⟩, "t0")])))).current_thread =
      (applyAdds (initE 100)
        [("default", ⟨some "user", some "i like cats", none, none⟩, "t0")]).current_thread ∧
    ∀ w e, e ∈ (applyAdds (initE 100)
        [("default", ⟨some "user", some "i like cats", none, none⟩, "t0")]).history →
      w ∈ tokensD e →
      lookupA w (load_from_file (initE 100) (some (save_to_file (applyAdds (initE 100)
        [("default", ⟨some "user", some "i like cats", none, none⟩, "t0")])))).indexed_content =
        lookupA w (applyAdds (initE 100)
          [("default", ⟨some "user", some "i like cats", none, none⟩, "t0")]).indexed_content) :=
  ⟨goodIndex_applyAdds 100
      [("default", ⟨some "user", some "i like cats", none, none⟩, "t0")],
    c5_save_load_roundtrip
      (applyAdds (initE 100)
        [("default", ⟨some "user", some "i like cats", none, none⟩, "t0")])
      (initE 100)
      (goodIndex_applyAdds 100
        [("default", ⟨some "user", some "i like cats", none, none⟩, "t0")])⟩

/-! ### get_last_reasoning (C9) -/

theorem find?_reverse_of_last {p : Entry → Bool} {l : List Entry} {i : Nat} {e : Entry}
    (hi : l[i]? = some e) (hp : p e = true)
    (hlast : ∀ j e', i < j → l[j]? = some e' → p e' = false) :
    l.reverse.find? p = some e := by
  induction l using List.reverseRecOn generalizing i with
  | nil => cases hi
  | append_singleton l' a ih =>
    rw [List.reverse_append, List.reverse_singleton, List.singleton_append, List.find?]
    by_cases hil : i = l'.length
    · subst hil
      have ha : a = e := by
        rw [List.getElem?_concat_length] at hi
        exact Option.some_injective _ hi
      subst ha
      rw [hp]
    · have hilt : i < l'.length := by
        have h2 := (List.getElem?_eq_some.mp hi).1
        simp only [List.length_append, List.length_singleton] at h2
        omega
      have hpa : p a = false :=
        hlast l'.length a hilt (by rw [List.getElem?_concat_length])
      rw [hpa]
      exact ih (by rwa [List.getElem?_append_left hilt] at hi)
        (fun j e' hj hget => hlast j e' hj
          (by
            have hjl : j < l'.length := (List.getElem?_eq_some.mp hget).1
            rwa [List.getElem?_append_left hjl]))

/-- C9 (amended): `get_last_reasoning` returns the most recent
reasoning-type entry's content with EVERY occurrence of the literal
substring `"Reasoning:"` removed (`str.replace`, not a prefix strip) and
surrounding whitespace trimmed; with no reasoning-type entry it returns
absent. -/
theorem c9_last_reasoning (m : Mem) :
    ((∀ e ∈ m.history, e.type ≠ some "reasoning") → get_last_reasoning m = none) ∧
    (∀ (i : Nat) (e : Entry), m.history[i]? = some e → e.type = some "reasoning" →
      (∀ (j : Nat) (e' : Entry), i < j → m.history[j]? = some e' →
        e'.type ≠ some "reasoning") →
      get_last_reasoning m =
        some (pyStrip (pyReplaceDel "Reasoning:" (e.content.getD "")))) := by
  constructor
  · intro hall
    unfold get_last_reasoning
    rw [List.find?_eq_none.mpr, Option.map_none']
    intro x hx
    rw [List.mem_reverse] at hx
    simp only [beq_iff_eq]
    exact hall x hx
  · intro i e hi htype hlast
    unfold get_last_reasoning
    rw [find?_reverse_of_last hi (by simp [htype])
      (fun j e' hj hget => by
        simp only [beq_eq_false_iff_ne, ne_eq]
        exact hlast j e' hj hget), Option.map_some']

/-- Witness for C9: the second of two entries is the latest reasoning entry;
its `"Reasoning:"` prefix is stripped and the rest trimmed. -/
theorem c9_last_reasoning_witness :
    (Mem.mk [] [⟨some "user", some "hi", none, some "t0"⟩,
      ⟨none, some "Reasoning: because", some "reasoning", some "t1"⟩] [] []).history[1]? =
      some ⟨none, some "Reasoning: because", some "reasoning", some "t1"⟩ ∧
    (⟨none, some "Reasoning: because", some "reasoning", some "t1"⟩ : Entry).type =
      some "reasoning" ∧
    get_last_reasoning (Mem.mk [] [⟨some "user", some "hi", none, some "t0"⟩,
      ⟨none, some "Reasoning: because", some "reasoning", some "t1"⟩] [] []) =
      some (pyStrip (pyReplaceDel "Reasoning:"
        ((⟨none, some "Reasoning: because", some "reasoning", some "t1"⟩ : Entry).content.getD
          ""))) ∧
    pyStrip (pyReplaceDel "Reasoning:"
      ((⟨none, some "Reasoning: because", some "reasoning", some "t1"⟩ : Entry).content.getD
        "")) = "because" :=
  ⟨rfl, rfl,
    (c9_last_reasoning (Mem.mk [] [⟨some "user", some "hi", none, some "t0"⟩,
      ⟨none, some "Reasoning: because", some "reasoning", some "t1"⟩] [] [])).2 1
      ⟨none, some "Reasoning: because", some "reasoning", some "t1"⟩ rfl rfl
      (by
        intro j e' hj hget
        rcases j with _ | j
        · omega
        rcases j with _ | j
        · omega
        · simp at hget),
    by decide⟩

/-- C9 counterexample: `str.replace` deletes the marker everywhere, so a
non-prefix occurrence of `"Reasoning:"` is NOT returned unchanged: the claim
predicts `"a Reasoning: b"` (no prefix to strip, trimming changes nothing),
the code returns `"a  b"`. -/
theorem c9_replace_all_counterexample :
    get_last_reasoning (Mem.mk []
      [⟨none, some "a Reasoning: b", some "reasoning", some "t"⟩] [] []) =
      some "a  b" ∧
    ("a  b" : String) ≠ "a Reasoning: b" ∧
    pyStrip "a Reasoning: b" = "a Reasoning: b" := by
  refine ⟨by decide, by decide, by decide⟩

/-! ### Relevance search (C8) -/

theorem mem_splitAux_infix :
    ∀ (l acc t : List Char), t ∈ splitAux l acc → t <:+: (acc.reverse ++ l)
  | [], acc, t, ht => by
    rw [splitAux] at ht
    by_cases hacc : acc = []
    · simp [hacc] at ht
    · simp only [hacc, if_false, List.mem_singleton] at ht
      subst ht
      rw [List.append_nil]
  | c :: cs, acc, t, ht => by
    rw [splitAux] at ht
    by_cases hws : c.isWhitespace
    · rw [if_pos hws] at ht
      by_cases hacc : acc = []
      · rw [if_pos hacc] at ht
        subst hacc
        have h1 := mem_splitAux_infix cs [] t ht
        rw [List.reverse_nil, List.nil_append] at h1
        rw [List.reverse_nil, List.nil_append]
        exact h1.trans (List.suffix_cons c cs).isInfix
      · rw [if_neg hacc] at ht
        rcases List.mem_cons.mp ht with h1 | h1
        · subst h1
          exact (List.prefix_append acc.reverse (c :: cs)).isInfix
        · have h2 := mem_splitAux_infix cs [] t h1
          rw [List.reverse_nil, List.nil_append] at h2
          exact h2.trans (((List.suffix_cons c cs).trans
            (List.suffix_append acc.reverse (c :: cs)))).isInfix
    · rw [if_neg hws] at ht
      have h1 := mem_splitAux_infix cs (c :: acc) t ht
      rw [List.reverse_cons, List.append_assoc, List.singleton_append] at h1
      exact h1

theorem infixB_of_prefix {t l : List Char} (h : t <+: l) : infixB t l = true := by
  cases l with
  | nil =>
    rw [List.prefix_nil] at h
    subst h
    rfl
  | cons c cs =>
    rw [infixB, List.isPrefixOf_iff_prefix.mpr h, Bool.true_or]

theorem infixB_of_infix {t l : List Char} (h : t <:+: l) : infixB t l = true := by
  obtain ⟨s, u, hsu⟩ := h
  induction s generalizing l with
  | nil =>
    rw [List.nil_append] at hsu
    exact infixB_of_prefix ⟨u, hsu⟩
  | cons c s' ih =>
    subst hsu
    rw [List.cons_append, List.cons_append, infixB, ih rfl, Bool.or_true]

theorem tokensD_infixB {w : String} {e : Entry} {c : String}
    (hc : e.content = some c) (hw : w ∈ tokensD e) :
    infixB w.data (pyLower c).data = true := by
  unfold tokensD at hw
  rw [hc] at hw
  rw [List.mem_dedup] at hw
  unfold tokens pySplit at hw
  obtain ⟨l, hl, he⟩ := List.mem_map.mp hw
  have hld : w.data = l := by rw [← he]
  rw [hld]
  have hinf := mem_splitAux_infix (pyLower c).data [] l hl
  rw [List.reverse_nil, List.nil_append] at hinf
  exact infixB_of_infix hinf

theorem occ_snoc (w : String) (h : List Entry) (a : Entry) :
    occ w (h ++ [a]) =
      occ w h ++ (if w ∈ tokensD a then [(h.length : Int)] else []) := by
  unfold occ
  rw [occFrom_append]
  congr 1
  rw [Nat.zero_add, occFrom, occFrom, List.append_nil]

theorem occ_eq_singleton {w : String} {h : List Entry} {i : Nat} {e : Entry}
    (he : h[i]? = some e) (hw : w ∈ tokensD e)
    (huniq : ∀ (j : Nat) (e' : Entry), h[j]? = some e' → w ∈ tokensD e' → j = i) :
    occ w h = [(i : Int)] := by
  induction h using List.reverseRecOn generalizing i with
  | nil => cases he
  | append_singleton h' a ih =>
    rw [occ_snoc]
    by_cases hil : i = h'.length
    · subst hil
      have ha : a = e := by
        rw [List.getElem?_concat_length] at he
        exact Option.some_injective _ he
      subst ha
      have hempty : occ w h' = [] := by
        by_contra hne
        obtain ⟨j, hj⟩ := List.exists_mem_of_ne_nil _ hne
        obtain ⟨jn, e', hjn, hje, hget, hwe⟩ := of_mem_occFrom hj
        have := huniq jn e' (by rwa [List.getElem?_append_left hjn]) hwe
        omega
      rw [hempty, if_pos hw, List.nil_append]
    · have hilt : i < h'.length := by
        have h2 := (List.getElem?_eq_some.mp he).1
        simp only [List.length_append, List.length_singleton] at h2
        omega
      have hwa : w ∉ tokensD a := by
        intro hwa
        have := huniq h'.length a (by rw [List.getElem?_concat_length]) hwa
        omega
      rw [if_neg hwa, List.append_nil]
      exact ih (by rwa [List.getElem?_append_left hilt] at he)
        (fun j e' hget hwe => huniq j e'
          (by
            have hjl : j < h'.length := (List.getElem?_eq_some.mp hget).1
            rwa [List.getElem?_append_left hjl]) hwe)

/-- Evaluation of `find_relevant` when the (single-word) query's posting
list is exactly `[i]` and entry `i` scores `1`. -/
theorem find_relevant_single {m : EMem} {query w : String} {i : Nat} {e : Entry}
    {c : String} {top_k : Nat}
    (hsplit : pySplit (pyLower query) = [w])
    (hlook : lookupA w m.indexed_content = some [(i : Int)])
    (hnth : m.history[i]? = some e)
    (hlt : i < m.history.length)
    (hc : e.content = some c)
    (hinf : infixB w.data (pyLower c).data = true)
    (htk : 1 ≤ top_k) :
    find_relevant m query top_k = some [e] := by
  obtain ⟨tk, rfl⟩ : ∃ tk, top_k = tk + 1 :=
    ⟨top_k - 1, by omega⟩
  have hlt' : ((i : Int) < (m.history.length : Int)) := by omega
  have hnth' : pyNth m.history (i : Int) = some e := by
    unfold pyNth
    rw [if_pos (by positivity), Int.toNat_natCast]
    exact hnth
  unfold find_relevant
  rw [hsplit]
  simp only [List.foldl_cons, List.foldl_nil, hlook, List.not_mem_nil, if_false,
    List.nil_append]
  rw [List.filter_cons_of_pos (by simpa using hlt'), List.filter_nil]
  simp only [List.mapM_cons, List.mapM_nil, hnth', Option.map_some', Option.bind_eq_bind,
    Option.some_bind, Option.pure_def]
  rw [List.countP_cons_of_pos _ _ (by
    simp only [hc, Option.getD_some]
    exact hinf)]
  simp only [List.countP_nil, Nat.zero_add, List.insertionSort, List.orderedInsert,
    List.take_succ_cons, List.take_nil]
  rw [show List.filter (fun p => decide (0 < p.2)) [((i : Int), 1)] = [((i : Int), 1)]
    from rfl]
  simp only [List.map_cons, List.map_nil, List.mapM_cons, List.mapM_nil, hnth',
    Option.bind_eq_bind, Option.some_bind, Option.pure_def]

/-- Evaluation of `find_relevant` when no query word is in the index. -/
theorem find_relevant_no_hits {m : EMem} {query : String} {top_k : Nat}
    (hnone : ∀ w ∈ pySplit (pyLower query), lookupA w m.indexed_content = none) :
    find_relevant m query top_k = some [] := by
  simp only [find_relevant]
  have hcand : ∀ (ws : List String), (∀ w ∈ ws, lookupA w m.indexed_content = none) →
      ws.foldl (fun acc w =>
        match lookupA w m.indexed_content with
        | some post => post.foldl (fun a i => if i ∈ a then a else a ++ [i]) acc
        | none => acc) [] = [] := by
    intro ws
    induction ws with
    | nil => intro _; rfl
    | cons x rest ih =>
      intro hall
      rw [List.foldl_cons]
      have hx := hall x (List.mem_cons_self _ _)
      rw [hx]
      exact ih (fun w hw => hall w (List.mem_cons_of_mem _ hw))
  rw [hcand _ hnone]
  simp only [List.filter_nil, List.mapM_nil, Option.pure_def, Option.bind_eq_bind,
    Option.some_bind, List.insertionSort, List.take_nil, List.map_nil]

/-- C8: in a wellformed store (KeywordIndex invariant of §3), a single-word
query whose word occurs as a token of exactly one entry's content returns
exactly that entry for any `topK ≥ 1`; a query none of whose words is in
the keyword index returns the empty sequence. -/
theorem c8_relevance (m : EMem) (query : String) (top_k : Nat)
    (htk : 1 ≤ top_k) (hg : goodIndex m) :
    (∀ (w : String) (i : Nat) (e : Entry), pySplit (pyLower query) = [w] →
      m.history[i]? = some e → w ∈ tokensD e →
      (∀ (j : Nat) (e' : Entry), m.history[j]? = some e' → w ∈ tokensD e' → j = i) →
      find_relevant m query top_k = some [e]) ∧
    ((∀ w ∈ pySplit (pyLower query), lookupA w m.indexed_content = none) →
      find_relevant m query top_k = some []) := by
  constructor
  · intro w i e hsplit hnth hw huniq
    have hocc : occ w m.history = [(i : Int)] := occ_eq_singleton hnth hw huniq
    have hlook : lookupA w m.indexed_content = some [(i : Int)] := by
      rw [goodIndex_iff_occ] at hg
      have h2 := hg w
      rw [hocc] at h2
      cases hb : lookupA w m.indexed_content with
      | none => rw [hb] at h2; cases h2
      | some l =>
        rw [hb] at h2
        simp only [Option.getD_some] at h2
        rw [h2]
    have hc : ∃ c, e.content = some c := by
      cases hcc : e.content with
      | none => unfold tokensD at hw; rw [hcc] at hw; cases hw
      | some c => exact ⟨c, rfl⟩
    obtain ⟨c, hc⟩ := hc
    have hwc : w ∈ tokensD e := hw
    exact find_relevant_single hsplit hlook hnth
      (List.getElem?_eq_some.mp hnth).1 hc (tokensD_infixB hc hwc) htk
  · exact find_relevant_no_hits

/-- Witness for C8: query `"cats"` against a one-entry store whose entry
contains the token, and query `"dogs"` which is absent from the index. -/
theorem c8_relevance_witness :
    1 ≤ 1 ∧
    goodIndex (applyAdds (initE 100)
      [("default", ⟨some "user", some "i like cats", none, none⟩, "t0")]) ∧
    find_relevant (applyAdds (initE 100)
      [("default", ⟨some "user", some "i like cats", none, none⟩, "t0")]) "cats" 1 =
      some [⟨some "user", some "i like cats", none, some "t0"⟩] ∧
    find_relevant (applyAdds (initE 100)
      [("default", ⟨some "user", some "i like cats", none, none⟩, "t0")]) "dogs" 1 =
      some [] :=
  ⟨by decide,
    goodIndex_applyAdds 100
      [("default", ⟨some "user", some "i like cats", none, none⟩, "t0")],
    (c8_relevance (applyAdds (initE 100)
        [("default", ⟨some "user", some "i like cats", none, none⟩, "t0")]) "cats" 1
      (by decide)
      (goodIndex_applyAdds 100
        [("default", ⟨some "user", some "i like cats", none, none⟩, "t0")])).1
      "cats" 0 ⟨some "user", some "i like cats", none, some "t0"⟩
      (by decide) (by decide) (by decide)
      (by
        intro j e' hget hw
        rcases j with _ | j
        · rfl
        · have hlen1 : (applyAdds (initE 100)
              [("default", ⟨some "user", some "i like cats", none, none⟩,
                "t0")]).history.length = 1 := by decide
          rw [List.getElem?_eq_none (by omega)] at hget
          cases hget),
    (c8_relevance (applyAdds (initE 100)
        [("default", ⟨some "user", some "i like cats", none, none⟩, "t0")]) "dogs" 1
      (by decide)
      (goodIndex_applyAdds 100
        [("default", ⟨some "user", some "i like cats", none, none⟩, "t0")])).2
      (by decide)⟩

end Jerzy
